import Mathlib

/-!
Shallow embedding of the `app-leaf-package` lifecycle core (`src/index.ts`).

The TypeScript module keeps five pieces of module-level state:
`controllerRegistry` (a Map from a controller class to its declaration),
`loadOrderMap`, `controllerInstances` (the instance table),
`registeringControllers` (the in-flight set used for cycle detection) and the
boolean `started`.  Controller classes are modelled by natural-number
identities; a `Controller` record carries everything the engine reads about a
class: its (optional) `loadOrder` option, the constructor parameter types
(`deps`, the `design:paramtypes` metadata), whether the constructor throws
(`ctorFails`), whether an `@OnInit` hook is declared and whether it throws
(`initHook`), and likewise for `@OnStart` (`startHook`).

Side effects that the claims talk about (construction, init/start hook
invocations, instance storage, warnings) are recorded in an event trace.
Thrown JavaScript exceptions become `Except.error` values; the mutations that
happened before the throw persist in the returned state, exactly as the
module-level Maps and Sets persist across a thrown exception in the source.
-/

/-- A controller declaration: everything the engine reads about a class. -/
structure Controller where
  id : Nat
  loadOrderOpt : Option Int
  deps : List Nat
  ctorFails : Bool
  initHook : Option Bool
  startHook : Option Bool
deriving DecidableEq, Repr

/-- Observable events of a run, in the order they happen. -/
inductive Event where
  | construct (id : Nat)
  | initRun (id : Nat)
  | store (id : Nat)
  | startRun (id : Nat)
  | warnStart (id : Nat)
  | logError (id : Nat)
  | warnEmpty
deriving DecidableEq, Repr

/-- Errors thrown by the engine (`AppLifeError` messages and rethrown hook
errors), plus `outOfFuel`, an artifact of the fuelled recursion that never
occurs for the fuel `AppLife.Start` supplies. -/
inductive Err where
  | alreadyRegistered
  | cyclic
  | depNotRegistered (id : Nat)
  | ctorFailed (id : Nat)
  | initFailed (id : Nat)
  | notStarted
  | notLoaded
  | outOfFuel
deriving DecidableEq, Repr

/-- The mutable module-level state of the engine (the declaration registry is
fixed before `Start` runs and is passed separately as `env`). -/
structure St where
  instances : List Nat
  inFlight : List Nat
  started : Bool
  trace : List Event
deriving DecidableEq, Repr

/-- The initial state: empty instance table, empty in-flight set,
`started = false`, no events. -/
def St.init : St := ⟨[], [], false, []⟩

/-- Look a controller up in the declaration registry. -/
def findCtrl (env : List Controller) (x : Nat) : Option Controller :=
  env.find? (fun c => c.id == x)

/-- The identities present in the declaration registry
(`controllerRegistry` key set, in declaration order). -/
def registryIds (env : List Controller) : List Nat :=
  env.map (fun c => c.id)

/-- Constructor parameter types of a class
(`Reflect.getMetadata("design:paramtypes", C) ?? []`). -/
def depsOf (env : List Controller) (x : Nat) : List Nat :=
  ((findCtrl env x).map (fun c => c.deps)).getD []

/-- Whether the constructor of `x` throws. -/
def ctorFailsOf (env : List Controller) (x : Nat) : Bool :=
  ((findCtrl env x).map (fun c => c.ctorFails)).getD false

/-- The `@OnInit` hook of `x`: `none` if absent, `some b` when present with
`b` recording whether it throws. -/
def initHookOf (env : List Controller) (x : Nat) : Option Bool :=
  ((findCtrl env x).map (fun c => c.initHook)).getD none

/-- The `@OnStart` hook of `x`, encoded like `initHookOf`. -/
def startHookOf (env : List Controller) (x : Nat) : Option Bool :=
  ((findCtrl env x).map (fun c => c.startHook)).getD none

/-- Effective load order of `x`: `loadOrderMap.get(x) ?? 0`, where the map
holds `options.loadOrder ?? 0`. -/
def loadOrderOf (env : List Controller) (x : Nat) : Int :=
  ((findCtrl env x).map (fun c => c.loadOrderOpt.getD 0)).getD 0

/-- Store a freshly initialized instance:
`controllerInstances.set(C, instance); registeringControllers.delete(C)`. -/
def storeOk (x : Nat) (st : St) : St :=
  { st with
    instances := st.instances ++ [x]
    inFlight := st.inFlight.erase x
    trace := st.trace ++ [Event.store x] }

/-- The dependency-resolution loop inside `registerController`: for each
constructor parameter type, throw if it is not in the registry, otherwise
recursively register it (the recursive call is supplied as `reg1`).  An error
aborts the loop and propagates, keeping the state mutated so far. -/
def regDepsF (reg1 : Nat → St → St × Except Err Unit) (isReg : Nat → Bool) :
    List Nat → St → St × Except Err Unit
  | [], st => (st, Except.ok ())
  | d :: ds, st =>
    if isReg d then
      match reg1 d st with
      | (st', Except.ok ()) => regDepsF reg1 isReg ds st'
      | (st', Except.error e) => (st', Except.error e)
    else (st, Except.error (Err.depNotRegistered d))

/-- The tail of `registerController` once the dependency loop has succeeded:
run the constructor (`new ControllerClass(...deps)`), rethrowing its error
after logging it; run the `@OnInit` hook if declared, likewise fail-fast;
then store the instance and clear the in-flight marker. -/
def finishCtrl (env : List Controller) (x : Nat) (st2 : St) : St × Except Err Unit :=
  let st3 : St := { st2 with trace := st2.trace ++ [Event.construct x] }
  if ctorFailsOf env x then
    ({ st3 with trace := st3.trace ++ [Event.logError x] },
      Except.error (Err.ctorFailed x))
  else
    match initHookOf env x with
    | some true =>
      let st4 : St := { st3 with trace := st3.trace ++ [Event.initRun x] }
      ({ st4 with trace := st4.trace ++ [Event.logError x] },
        Except.error (Err.initFailed x))
    | some false =>
      let st4 : St := { st3 with trace := st3.trace ++ [Event.initRun x] }
      (storeOk x st4, Except.ok ())
    | none => (storeOk x st3, Except.ok ())

/-- `registerController`, fuelled to make the recursion structural.  The fuel
only bounds recursion depth; `AppLife.Start` passes `env.length + 1`, which is
shown below to be enough (depth is bounded by the number of registered ids not
yet in flight).  Mirrors the source step by step: cached-instance check,
in-flight (cycle) check, in-flight marking, dependency loop, then
`finishCtrl` (construction, optional `OnInit`, store + in-flight clear). -/
def regCtrl (env : List Controller) : Nat → Nat → St → St × Except Err Unit
  | 0, _, st => (st, Except.error Err.outOfFuel)
  | fuel+1, x, st =>
    if x ∈ st.instances then (st, Except.ok ())
    else if x ∈ st.inFlight then (st, Except.error Err.cyclic)
    else
      match regDepsF (fun d st2 => regCtrl env fuel d st2)
          (fun d => decide (d ∈ registryIds env)) (depsOf env x)
          { st with inFlight := x :: st.inFlight } with
      | (st2, Except.error e) => (st2, Except.error e)
      | (st2, Except.ok ()) => finishCtrl env x st2

/-- Stable insertion of `x` into a list already sorted by effective load
order: `x` goes after every element whose load order is `≤` its own, which is
exactly what a stable sort with comparator `loadOrder a - loadOrder b` does to
elements in declaration order. -/
def insertLo (env : List Controller) (x : Nat) : List Nat → List Nat
  | [] => [x]
  | y :: ys =>
    if loadOrderOf env y ≤ loadOrderOf env x then y :: insertLo env x ys
    else x :: y :: ys

/-- The sorted traversal sequence built by `AppLife.Start`:
`Array.from(controllerRegistry.entries()).sort((a, b) => lo(a) - lo(b))`,
a stable sort of the registry keys (declaration order) by load order. -/
def sortedIds (env : List Controller) : List Nat :=
  (registryIds env).foldl (fun acc x => insertLo env x acc) []

/-- The first phase of `AppLife.Start`: `for (C of sorted) await
registerController(C)`; the first error halts the loop and propagates. -/
def startLoop (env : List Controller) (fuel : Nat) :
    List Nat → St → St × Except Err Unit
  | [], st => (st, Except.ok ())
  | x :: xs, st =>
    match regCtrl env fuel x st with
    | (st', Except.ok ()) => startLoop env fuel xs st'
    | (st', Except.error e) => (st', Except.error e)

/-- Events produced by invoking one `@OnStart` hook: the invocation itself,
followed by the caught-rejection warning when the hook throws. -/
def startEvents (x : Nat) (b : Bool) : List Event :=
  if b then [Event.startRun x, Event.warnStart x] else [Event.startRun x]

/-- The start phase: invoke every declared `@OnStart` hook; a rejection is
caught per hook and logged as a warning, never propagating. -/
def runStartHooks (env : List Controller) : List Nat → St → St
  | [], st => st
  | x :: xs, st =>
    match startHookOf env x with
    | none => runStartHooks env xs st
    | some b =>
      runStartHooks env xs { st with trace := st.trace ++ startEvents x b }

/-- The first statements of `AppLife.Start()`: set `started = true`, then warn
when the registry is empty. -/
def startState (env : List Controller) (st : St) : St :=
  if env.isEmpty then
    { st with started := true, trace := st.trace ++ [Event.warnEmpty] }
  else { st with started := true }

/-- The tail of `AppLife.Start()`: a construct/init-loop error rejects the
whole call; otherwise every start hook runs with its failure isolated. -/
def finishStart (env : List Controller) (p : St × Except Err Unit) :
    St × Except Err Unit :=
  match p with
  | (st1, Except.error e) => (st1, Except.error e)
  | (st1, Except.ok _) =>
    (runStartHooks env (sortedIds env) st1, Except.ok ())

/-- `AppLife.Start()`: set `started`, warn when the registry is empty, run the
construct/init loop over the load-order-sorted registry, then (only if that
loop succeeded) run every start hook, isolating their failures. -/
def appStart (env : List Controller) (st : St) : St × Except Err Unit :=
  finishStart env
    (startLoop env (env.length + 1) (sortedIds env) (startState env st))

/-- The `Dependency` lookup utility: fail if `Start` has not been initiated,
fail if the identity has no entry in the instance table, otherwise return the
stored instance.  It only reads state (a pure function of `st`). -/
def dependency (st : St) (x : Nat) : Except Err Nat :=
  if st.started = false then Except.error Err.notStarted
  else if x ∉ st.instances then Except.error Err.notLoaded
  else Except.ok x

/-- The `@Controller` decorator acting on the declaration registry: throw
`"Controller already registered"` when the identity is already declared,
otherwise append the declaration (Map insertion order = declaration order). -/
def controllerDecl (reg : List Controller) (c : Controller) :
    Except Err (List Controller) :=
  if c.id ∈ registryIds reg then Except.error Err.alreadyRegistered
  else Except.ok (reg ++ [c])

/-- Reflexive-transitive reachability along declared dependency edges. -/
inductive Reaches (env : List Controller) : Nat → Nat → Prop
  | refl (x : Nat) : Reaches env x x
  | step {x d z : Nat} : d ∈ depsOf env x → Reaches env d z → Reaches env x z

/-- The dependency-closure invariant of a state: every identity in the
instance table has all of its declared dependencies in the table; an identity
is in the table exactly when its store event was emitted; and every
construction event was preceded by store events for all of the constructed
identity's declared dependencies. -/
def invSt (env : List Controller) (st : St) : Prop :=
  (∀ z ∈ st.instances, ∀ d ∈ depsOf env z, d ∈ st.instances) ∧
  (∀ z, z ∈ st.instances ↔ Event.store z ∈ st.trace) ∧
  (∀ i z, st.trace.get? i = some (Event.construct z) →
    ∀ d ∈ depsOf env z, ∃ j, j < i ∧ st.trace.get? j = some (Event.store d))

/-- The sequence of construction attempts recorded in a trace. -/
def constructsOf (tr : List Event) : List Nat :=
  tr.filterMap (fun e =>
    match e with
    | Event.construct i => some i
    | _ => none)

/-- Registered identities neither in flight nor instantiated; the length of
this list bounds the remaining recursion depth of `registerController`. -/
def freeIds (env : List Controller) (st : St) : List Nat :=
  (registryIds env).filter
    (fun i => decide (i ∉ st.inFlight) && decide (i ∉ st.instances))

/-! Basic facts about `finishCtrl`: how it changes each state component. -/

theorem finishCtrl_spec (env : List Controller) (x : Nat) (st : St) :
    ((finishCtrl env x st).2 = Except.ok () ∧
      (finishCtrl env x st).1.instances = st.instances ++ [x] ∧
      (finishCtrl env x st).1.inFlight = st.inFlight.erase x) ∨
    ((∃ e, (finishCtrl env x st).2 = Except.error e) ∧
      (finishCtrl env x st).1.instances = st.instances ∧
      (finishCtrl env x st).1.inFlight = st.inFlight) := by
  simp only [finishCtrl, storeOk]
  split
  · exact Or.inr ⟨⟨_, rfl⟩, rfl, rfl⟩
  · split
    · exact Or.inr ⟨⟨_, rfl⟩, rfl, rfl⟩
    · exact Or.inl ⟨rfl, rfl, rfl⟩
    · exact Or.inl ⟨rfl, rfl, rfl⟩

theorem finishCtrl_started (env : List Controller) (x : Nat) (st : St) :
    (finishCtrl env x st).1.started = st.started := by
  simp only [finishCtrl, storeOk]
  split
  · rfl
  · split <;> rfl

theorem finishCtrl_trace (env : List Controller) (x : Nat) (st : St) :
    ∃ t, (finishCtrl env x st).1.trace = st.trace ++ t ∧
      ∀ e ∈ t, e = Event.construct x ∨ e = Event.initRun x ∨
        e = Event.store x ∨ e = Event.logError x := by
  simp only [finishCtrl, storeOk]
  split
  · exact ⟨[Event.construct x, Event.logError x], by simp, by
      intro e he
      simp at he
      rcases he with rfl | rfl <;> simp⟩
  · split
    · exact ⟨[Event.construct x, Event.initRun x, Event.logError x], by simp, by
        intro e he
        simp at he
        rcases he with rfl | rfl | rfl <;> simp⟩
    · exact ⟨[Event.construct x, Event.initRun x, Event.store x], by simp, by
        intro e he
        simp at he
        rcases he with rfl | rfl | rfl <;> simp⟩
    · exact ⟨[Event.construct x, Event.store x], by simp, by
        intro e he
        simp at he
        rcases he with rfl | rfl <;> simp⟩

/-! A generic preservation principle for the fuelled recursion.  `P` is the
invariant and `A x` records what is known about the controller whose frame is
open (derivable from the cached-instance and in-flight checks both failing). -/

theorem regDepsF_pres (P : St → Prop) (reg1 : Nat → St → St × Except Err Unit)
    (isReg : Nat → Bool)
    (h : ∀ d st, P st → P (reg1 d st).1) :
    ∀ ds st, P st → P (regDepsF reg1 isReg ds st).1 := by
  intro ds
  induction ds with
  | nil => intro st hP; simpa [regDepsF] using hP
  | cons d ds ih =>
    intro st hP
    simp only [regDepsF]
    split
    · have h1 := h d st hP
      rcases hr : reg1 d st with ⟨st', r⟩
      rw [hr] at h1
      cases r with
      | ok u => cases u; exact ih st' h1
      | error e => exact h1
    · exact hP

theorem regCtrl_pres (env : List Controller) (P : St → Prop) (A : Nat → Prop)
    (hFlight : ∀ x st, P st → A x → P { st with inFlight := x :: st.inFlight })
    (hFinish : ∀ x st, P st → A x → P (finishCtrl env x st).1)
    (hA : ∀ x st, P st → x ∉ st.instances → x ∉ st.inFlight → A x) :
    ∀ fuel x st, P st → P (regCtrl env fuel x st).1 := by
  intro fuel
  induction fuel with
  | zero => intro x st h; simpa [regCtrl] using h
  | succ fuel ih =>
    intro x st h
    simp only [regCtrl]
    split
    · exact h
    · split
      · exact h
      · rename_i hx1 hx2
        have hAx := hA x st h hx1 hx2
        have hdeps : P (regDepsF (fun d st2 => regCtrl env fuel d st2)
            (fun d => decide (d ∈ registryIds env)) (depsOf env x)
            { st with inFlight := x :: st.inFlight }).1 :=
          regDepsF_pres P _ _ (fun d st2 hP => ih d st2 hP) _ _
            (hFlight x st h hAx)
        rcases hr : regDepsF (fun d st2 => regCtrl env fuel d st2)
            (fun d => decide (d ∈ registryIds env)) (depsOf env x)
            { st with inFlight := x :: st.inFlight } with ⟨st2, r⟩
        rw [hr] at hdeps
        cases r with
        | ok u => cases u; exact hFinish x st2 hdeps hAx
        | error e => exact hdeps

/-! Instantiations of the preservation principle. -/

theorem regCtrl_mem_instances (env : List Controller) (y : Nat) :
    ∀ fuel x st, y ∈ st.instances → y ∈ (regCtrl env fuel x st).1.instances := by
  intro fuel x st hy
  refine regCtrl_pres env (fun s => y ∈ s.instances) (fun _ => True)
    ?_ ?_ ?_ fuel x st hy
  · intro x st h _; exact h
  · intro x st h _
    rcases finishCtrl_spec env x st with ⟨-, h2, -⟩ | ⟨-, h2, -⟩ <;> rw [h2]
    · exact List.mem_append_left _ h
    · exact h
  · intro _ _ _ _ _; trivial

theorem regCtrl_started (env : List Controller) :
    ∀ fuel x st, (regCtrl env fuel x st).1.started = st.started := by
  intro fuel x st
  refine regCtrl_pres env (fun s => s.started = st.started) (fun _ => True)
    ?_ ?_ ?_ fuel x st rfl
  · intro x s h _; exact h
  · intro x s h _; rw [finishCtrl_started]; exact h
  · intro _ _ _ _ _; trivial

theorem regCtrl_ok_mem (env : List Controller) (fuel x : Nat) (st : St)
    (h : (regCtrl env fuel x st).2 = Except.ok ()) :
    x ∈ (regCtrl env fuel x st).1.instances := by
  cases fuel with
  | zero => simp [regCtrl] at h
  | succ fuel =>
    simp only [regCtrl] at h ⊢
    by_cases h1 : x ∈ st.instances
    · simp only [if_pos h1]
      exact h1
    · simp only [if_neg h1] at h ⊢
      by_cases h2 : x ∈ st.inFlight
      · simp [if_pos h2] at h
      · simp only [if_neg h2] at h ⊢
        rcases hr : regDepsF (fun d st2 => regCtrl env fuel d st2)
            (fun d => decide (d ∈ registryIds env)) (depsOf env x)
            { st with inFlight := x :: st.inFlight } with ⟨st2, r⟩
        rw [hr] at h
        cases r with
        | error e => simp at h
        | ok u =>
          cases u
          rcases finishCtrl_spec env x st2 with ⟨-, hi, -⟩ | ⟨⟨e, he⟩, -, -⟩
          · rw [hi]; simp
          · rw [he] at h; simp at h

theorem regCtrl_union_mono (env : List Controller) (y : Nat) :
    ∀ fuel x st, (y ∈ st.inFlight ∨ y ∈ st.instances) →
      (y ∈ (regCtrl env fuel x st).1.inFlight ∨
        y ∈ (regCtrl env fuel x st).1.instances) := by
  intro fuel x st hy
  refine regCtrl_pres env
    (fun s => y ∈ s.inFlight ∨ y ∈ s.instances) (fun _ => True)
    ?_ ?_ ?_ fuel x st hy
  · intro x s h _
    rcases h with h | h
    · exact Or.inl (List.mem_cons_of_mem _ h)
    · exact Or.inr h
  · intro x s h _
    rcases finishCtrl_spec env x s with ⟨-, hi, hf⟩ | ⟨-, hi, hf⟩
    · rcases h with h | h
      · by_cases hyx : y = x
        · exact Or.inr (by rw [hi, hyx]; simp)
        · exact Or.inl (by rw [hf]; exact (List.mem_erase_of_ne hyx).mpr h)
      · exact Or.inr (by rw [hi]; exact List.mem_append_left _ h)
    · rw [hi, hf]; exact h
  · intro _ _ _ _ _; trivial

theorem regCtrl_trace_ext (env : List Controller) :
    ∀ fuel x st, ∃ t, (regCtrl env fuel x st).1.trace = st.trace ++ t := by
  intro fuel x st
  refine regCtrl_pres env (fun s => ∃ t, s.trace = st.trace ++ t) (fun _ => True)
    ?_ ?_ ?_ fuel x st ⟨[], by simp⟩
  · intro x s h _; exact h
  · intro x s h _
    rcases h with ⟨t, ht⟩
    rcases finishCtrl_trace env x s with ⟨t2, ht2, -⟩
    exact ⟨t ++ t2, by rw [ht2, ht, List.append_assoc]⟩
  · intro _ _ _ _ _; trivial

/-- Once an identity is in flight without a stored instance — which is what
every failure path of `registerController` leaves behind, since
`registeringControllers.delete` only runs on the success path — no later
`registerController` call (for any target) stores it, constructs it, or
removes its in-flight marker. -/
theorem regCtrl_sticky (env : List Controller) (c : Nat) :
    ∀ fuel x st, c ∈ st.inFlight → c ∉ st.instances →
      c ∈ (regCtrl env fuel x st).1.inFlight ∧
      c ∉ (regCtrl env fuel x st).1.instances ∧
      ∃ t, (regCtrl env fuel x st).1.trace = st.trace ++ t ∧
        Event.construct c ∉ t ∧ Event.store c ∉ t := by
  intro fuel x st h1 h2
  refine regCtrl_pres env
    (fun s => c ∈ s.inFlight ∧ c ∉ s.instances ∧
      ∃ t, s.trace = st.trace ++ t ∧ Event.construct c ∉ t ∧ Event.store c ∉ t)
    (fun z => z ≠ c) ?_ ?_ ?_ fuel x st ⟨h1, h2, [], by simp, by simp, by simp⟩
  · intro z s h _
    exact ⟨List.mem_cons_of_mem _ h.1, h.2.1, h.2.2⟩
  · intro z s h hz
    rcases h with ⟨ha, hb, t, ht, htc, hts⟩
    rcases finishCtrl_spec env z s with ⟨-, hi, hf⟩ | ⟨-, hi, hf⟩
    · refine ⟨?_, ?_, ?_⟩
      · rw [hf]; exact (List.mem_erase_of_ne (fun h => hz h.symm)).mpr ha
      · rw [hi]
        intro hmem
        rcases List.mem_append.mp hmem with h | h
        · exact hb h
        · simp at h; exact hz h.symm
      · rcases finishCtrl_trace env z s with ⟨t2, ht2, ht2e⟩
        refine ⟨t ++ t2, by rw [ht2, ht, List.append_assoc], ?_, ?_⟩
        · intro hmem
          rcases List.mem_append.mp hmem with h | h
          · exact htc h
          · rcases ht2e _ h with h' | h' | h' | h' <;> simp at h' <;>
              exact hz h'.symm
        · intro hmem
          rcases List.mem_append.mp hmem with h | h
          · exact hts h
          · rcases ht2e _ h with h' | h' | h' | h' <;> simp at h' <;>
              exact hz h'.symm
    · refine ⟨by rw [hf]; exact ha, by rw [hi]; exact hb, ?_⟩
      rcases finishCtrl_trace env z s with ⟨t2, ht2, ht2e⟩
      refine ⟨t ++ t2, by rw [ht2, ht, List.append_assoc], ?_, ?_⟩
      · intro hmem
        rcases List.mem_append.mp hmem with h | h
        · exact htc h
        · rcases ht2e _ h with h' | h' | h' | h' <;> simp at h' <;>
            exact hz h'.symm
      · intro hmem
        rcases List.mem_append.mp hmem with h | h
        · exact hts h
        · rcases ht2e _ h with h' | h' | h' | h' <;> simp at h' <;>
            exact hz h'.symm
  · intro z s h _ hzf
    intro hzc
    exact hzf (hzc ▸ h.1)

/-! Facts about the two phases of `AppLife.Start`. -/

theorem startLoop_pres (env : List Controller) (fuel : Nat) (P : St → Prop)
    (h : ∀ x st, P st → P (regCtrl env fuel x st).1) :
    ∀ l st, P st → P (startLoop env fuel l st).1 := by
  intro l
  induction l with
  | nil => intro st hP; simpa [startLoop] using hP
  | cons x xs ih =>
    intro st hP
    simp only [startLoop]
    have h1 := h x st hP
    rcases hr : regCtrl env fuel x st with ⟨st', r⟩
    rw [hr] at h1
    cases r with
    | ok u => cases u; exact ih st' h1
    | error e => exact h1

theorem startLoop_started (env : List Controller) (fuel : Nat) :
    ∀ l st, (startLoop env fuel l st).1.started = st.started := by
  intro l st
  refine startLoop_pres env fuel (fun s => s.started = st.started)
    ?_ l st rfl
  intro x s h
  rw [regCtrl_started]; exact h

theorem startLoop_mem_instances (env : List Controller) (fuel y : Nat) :
    ∀ l st, y ∈ st.instances → y ∈ (startLoop env fuel l st).1.instances := by
  intro l st hy
  exact startLoop_pres env fuel (fun s => y ∈ s.instances)
    (fun x s h => regCtrl_mem_instances env y fuel x s h) l st hy

theorem startLoop_ok_mem (env : List Controller) (fuel : Nat) :
    ∀ l st, (startLoop env fuel l st).2 = Except.ok () →
      ∀ x ∈ l, x ∈ (startLoop env fuel l st).1.instances := by
  intro l
  induction l with
  | nil => intro st _ x hx; simp at hx
  | cons z zs ih =>
    intro st h x hx
    simp only [startLoop] at h ⊢
    rcases hr : regCtrl env fuel z st with ⟨st', r⟩
    rw [hr] at h
    cases r with
    | error e => simp at h
    | ok u =>
      cases u
      rcases List.mem_cons.mp hx with rfl | hx
      · have hm : x ∈ st'.instances := by
          have := regCtrl_ok_mem env fuel x st (by rw [hr])
          rwa [hr] at this
        exact startLoop_mem_instances env fuel x zs st' hm
      · exact ih st' h x hx

theorem startLoop_trace_ext (env : List Controller) (fuel : Nat) :
    ∀ l st, ∃ t, (startLoop env fuel l st).1.trace = st.trace ++ t := by
  intro l st
  refine startLoop_pres env fuel (fun s => ∃ t, s.trace = st.trace ++ t)
    ?_ l st ⟨[], by simp⟩
  intro x s hs
  rcases hs with ⟨t, ht⟩
  rcases regCtrl_trace_ext env fuel x s with ⟨t2, ht2⟩
  exact ⟨t ++ t2, by rw [ht2, ht, List.append_assoc]⟩

theorem runStartHooks_instances (env : List Controller) :
    ∀ l st, (runStartHooks env l st).instances = st.instances := by
  intro l
  induction l with
  | nil => intro st; rfl
  | cons x xs ih =>
    intro st
    rcases hh : startHookOf env x with - | b
    · simp only [runStartHooks, hh]
      exact ih st
    · simp only [runStartHooks, hh]
      exact ih _

theorem runStartHooks_started (env : List Controller) :
    ∀ l st, (runStartHooks env l st).started = st.started := by
  intro l
  induction l with
  | nil => intro st; rfl
  | cons x xs ih =>
    intro st
    rcases hh : startHookOf env x with - | b
    · simp only [runStartHooks, hh]
      exact ih st
    · simp only [runStartHooks, hh]
      exact ih _

theorem runStartHooks_trace_mono (env : List Controller) (e : Event) :
    ∀ l st, e ∈ st.trace → e ∈ (runStartHooks env l st).trace := by
  intro l
  induction l with
  | nil => intro st h; exact h
  | cons x xs ih =>
    intro st h
    rcases hh : startHookOf env x with - | b
    · simp only [runStartHooks, hh]
      exact ih st h
    · simp only [runStartHooks, hh]
      exact ih _ (by simp [h])

theorem runStartHooks_trace_ext (env : List Controller) :
    ∀ l st, ∃ t, (runStartHooks env l st).trace = st.trace ++ t ∧
      ∀ e ∈ t, ∃ y, e = Event.startRun y ∨ e = Event.warnStart y := by
  intro l
  induction l with
  | nil => intro st; exact ⟨[], by simp [runStartHooks], by simp⟩
  | cons x xs ih =>
    intro st
    rcases hh : startHookOf env x with - | b
    · simpa only [runStartHooks, hh] using ih st
    · rcases ih { st with trace := st.trace ++ startEvents x b } with ⟨t, ht, hte⟩
      refine ⟨startEvents x b ++ t, ?_, ?_⟩
      · simp only [runStartHooks, hh]
        rw [ht]
        simp
      · intro e he
        rcases List.mem_append.mp he with h | h
        · cases b with
          | false =>
            simp [startEvents] at h
            exact ⟨x, Or.inl h⟩
          | true =>
            simp [startEvents] at h
            rcases h with rfl | rfl
            · exact ⟨x, Or.inl rfl⟩
            · exact ⟨x, Or.inr rfl⟩
        · exact hte e h

theorem runStartHooks_events (env : List Controller) (x : Nat) (b : Bool) :
    ∀ l st, x ∈ l → startHookOf env x = some b →
      Event.startRun x ∈ (runStartHooks env l st).trace ∧
      (b = true → Event.warnStart x ∈ (runStartHooks env l st).trace) := by
  intro l
  induction l with
  | nil => intro st hx _; simp at hx
  | cons z zs ih =>
    intro st hx hb
    rcases List.mem_cons.mp hx with rfl | hx
    · simp only [runStartHooks, hb]
      constructor
      · apply runStartHooks_trace_mono
        cases b with
        | false => simp [startEvents]
        | true => simp [startEvents]
      · intro hbt
        subst hbt
        apply runStartHooks_trace_mono
        simp [startEvents]
    · rcases hh : startHookOf env z with - | bz
      · simp only [runStartHooks, hh]
        exact ih st hx hb
      · simp only [runStartHooks, hh]
        exact ih _ hx hb

theorem count_startEvents_ne (z x : Nat) (b : Bool) (h : z ≠ x) :
    List.count (Event.startRun x) (startEvents z b) = 0 := by
  rw [List.count_eq_zero]
  intro hmem
  cases b with
  | false =>
    simp [startEvents] at hmem
    exact h hmem.symm
  | true =>
    simp [startEvents] at hmem
    exact h hmem.symm

theorem count_startEvents_self (x : Nat) (b : Bool) :
    List.count (Event.startRun x) (startEvents x b) = 1 := by
  cases b with
  | false => simp [startEvents]
  | true => simp [startEvents, List.count_cons]

theorem runStartHooks_count_notMem (env : List Controller) (x : Nat) :
    ∀ l st, x ∉ l →
      ((runStartHooks env l st).trace.count (Event.startRun x)) =
        st.trace.count (Event.startRun x) := by
  intro l
  induction l with
  | nil => intro st _; rfl
  | cons z zs ih =>
    intro st hx
    have hzx : z ≠ x := fun h => hx (by simp [h])
    have hxz : x ∉ zs := fun h => hx (by simp [h])
    rcases hh : startHookOf env z with - | bz
    · simp only [runStartHooks, hh]
      exact ih st hxz
    · simp only [runStartHooks, hh]
      rw [ih _ hxz]
      simp [List.count_append, count_startEvents_ne z x bz hzx]

theorem runStartHooks_count_mem (env : List Controller) (x : Nat) (b : Bool) :
    ∀ l st, l.Nodup → x ∈ l → startHookOf env x = some b →
      ((runStartHooks env l st).trace.count (Event.startRun x)) =
        st.trace.count (Event.startRun x) + 1 := by
  intro l
  induction l with
  | nil => intro st _ hx _; simp at hx
  | cons z zs ih =>
    intro st hnd hx hb
    have hnd2 := List.nodup_cons.mp hnd
    rcases List.mem_cons.mp hx with heq | hx
    · rw [heq] at hb ⊢
      simp only [runStartHooks, hb]
      rw [runStartHooks_count_notMem env z zs _ hnd2.1]
      simp [List.count_append, count_startEvents_self z b]
    · have hzx : z ≠ x := fun h => hnd2.1 (h ▸ hx)
      rcases hh : startHookOf env z with - | bz
      · simp only [runStartHooks, hh]
        exact ih st hnd2.2 hx hb
      · simp only [runStartHooks, hh]
        rw [ih _ hnd2.2 hx hb]
        simp [List.count_append, count_startEvents_ne z x bz hzx]

/-! The load-order sort: a stable sort of the registry keys. -/

theorem insertLo_perm (env : List Controller) (x : Nat) :
    ∀ l, List.Perm (insertLo env x l) (x :: l) := by
  intro l
  induction l with
  | nil => exact List.Perm.refl _
  | cons y ys ih =>
    simp only [insertLo]
    split
    · exact List.Perm.trans (List.Perm.cons y ih) (List.Perm.swap x y ys)
    · exact List.Perm.refl _

theorem foldl_insertLo_perm (env : List Controller) :
    ∀ r acc, List.Perm (r.foldl (fun a x => insertLo env x a) acc) (acc ++ r) := by
  intro r
  induction r with
  | nil => intro acc; simp
  | cons x rs ih =>
    intro acc
    simp only [List.foldl]
    refine List.Perm.trans (ih _) ?_
    refine List.Perm.trans (List.Perm.append_right rs (insertLo_perm env x acc)) ?_
    exact List.perm_middle.symm

theorem sortedIds_perm (env : List Controller) :
    List.Perm (sortedIds env) (registryIds env) := by
  have h := foldl_insertLo_perm env (registryIds env) []
  simpa [sortedIds] using h

theorem sortedIds_mem (env : List Controller) (x : Nat) :
    x ∈ sortedIds env ↔ x ∈ registryIds env :=
  (sortedIds_perm env).mem_iff

theorem sortedIds_nodup (env : List Controller)
    (h : (registryIds env).Nodup) : (sortedIds env).Nodup :=
  (sortedIds_perm env).nodup_iff.mpr h

theorem insertLo_sorted (env : List Controller) (x : Nat) :
    ∀ l, l.Pairwise (fun a b => loadOrderOf env a ≤ loadOrderOf env b) →
      (insertLo env x l).Pairwise
        (fun a b => loadOrderOf env a ≤ loadOrderOf env b) := by
  intro l
  induction l with
  | nil => intro _; simp [insertLo]
  | cons y ys ih =>
    intro h
    rcases List.pairwise_cons.mp h with ⟨hy, hys⟩
    simp only [insertLo]
    split
    · rename_i hle
      refine List.pairwise_cons.mpr ⟨?_, ih hys⟩
      intro z hz
      rcases List.mem_cons.mp ((insertLo_perm env x ys).mem_iff.mp hz) with
        rfl | hz2
      · exact hle
      · exact hy z hz2
    · rename_i hgt
      push_neg at hgt
      refine List.pairwise_cons.mpr ⟨?_, h⟩
      intro z hz
      rcases List.mem_cons.mp hz with rfl | hz2
      · exact le_of_lt hgt
      · exact le_trans (le_of_lt hgt) (hy z hz2)

theorem foldl_insertLo_sorted (env : List Controller) :
    ∀ (r acc : List Nat),
      List.Pairwise (fun a b => loadOrderOf env a ≤ loadOrderOf env b) acc →
      List.Pairwise (fun a b => loadOrderOf env a ≤ loadOrderOf env b)
        (r.foldl (fun a x => insertLo env x a) acc) := by
  intro r
  induction r with
  | nil => intro acc h; exact h
  | cons x rs ih =>
    intro acc h
    exact ih _ (insertLo_sorted env x acc h)

/-- The traversal sequence is sorted by ascending effective load order. -/
theorem sortedIds_sorted (env : List Controller) :
    (sortedIds env).Pairwise
      (fun a b => loadOrderOf env a ≤ loadOrderOf env b) :=
  foldl_insertLo_sorted env (registryIds env) [] (by simp)

theorem insertLo_filter (env : List Controller) (x : Nat) (v : Int) :
    ∀ l, List.Pairwise (fun a b => loadOrderOf env a ≤ loadOrderOf env b) l →
      (insertLo env x l).filter (fun y => decide (loadOrderOf env y = v)) =
        if loadOrderOf env x = v
        then l.filter (fun y => decide (loadOrderOf env y = v)) ++ [x]
        else l.filter (fun y => decide (loadOrderOf env y = v)) := by
  intro l
  induction l with
  | nil =>
    intro _
    by_cases hv : loadOrderOf env x = v <;> simp [insertLo, hv]
  | cons y ys ih =>
    intro h
    rcases List.pairwise_cons.mp h with ⟨hy, hys⟩
    simp only [insertLo]
    by_cases hle : loadOrderOf env y ≤ loadOrderOf env x
    · rw [if_pos hle, List.filter_cons, List.filter_cons, ih hys]
      by_cases hyv : loadOrderOf env y = v
      · by_cases hxv : loadOrderOf env x = v
        · simp [hyv, hxv]
        · simp [hyv, hxv]
      · by_cases hxv : loadOrderOf env x = v
        · simp [hyv, hxv]
        · simp [hyv, hxv]
    · rw [if_neg hle]
      push_neg at hle
      have hemp : loadOrderOf env x = v → (y :: ys).filter
          (fun z => decide (loadOrderOf env z = v)) = [] := by
        intro hxv
        rw [List.filter_eq_nil_iff]
        intro a ha
        simp only [decide_eq_true_eq]
        intro hav
        rcases List.mem_cons.mp ha with rfl | ha2
        · rw [hav, ← hxv] at hle
          exact lt_irrefl _ hle
        · have h2 := hy a ha2
          rw [hav, ← hxv] at h2
          exact absurd (lt_of_lt_of_le hle h2) (lt_irrefl _)
      by_cases hxv : loadOrderOf env x = v
      · rw [if_pos hxv, List.filter_cons, hemp hxv]
        simp [hxv]
      · rw [if_neg hxv, List.filter_cons]
        simp [hxv]

theorem foldl_insertLo_filter (env : List Controller) (v : Int) :
    ∀ (r acc : List Nat),
      List.Pairwise (fun a b => loadOrderOf env a ≤ loadOrderOf env b) acc →
      (r.foldl (fun a x => insertLo env x a) acc).filter
          (fun y => decide (loadOrderOf env y = v)) =
        acc.filter (fun y => decide (loadOrderOf env y = v)) ++
          r.filter (fun y => decide (loadOrderOf env y = v)) := by
  intro r
  induction r with
  | nil => intro acc _; simp
  | cons x rs ih =>
    intro acc h
    simp only [List.foldl]
    rw [ih _ (insertLo_sorted env x acc h), insertLo_filter env x v acc h]
    by_cases hxv : loadOrderOf env x = v
    · rw [if_pos hxv, List.filter_cons]
      simp [hxv, List.append_assoc]
    · rw [if_neg hxv, List.filter_cons]
      simp [hxv]

/-- Stability of the load-order sort: among components that share one
effective load-order value, the traversal sequence keeps declaration order. -/
theorem sortedIds_stable (env : List Controller) (v : Int) :
    (sortedIds env).filter (fun y => decide (loadOrderOf env y = v)) =
      (registryIds env).filter (fun y => decide (loadOrderOf env y = v)) := by
  have h := foldl_insertLo_filter env v (registryIds env) [] (by simp)
  simpa [sortedIds] using h

/-! Everything `registerController` stores is reachable from its target
along declared dependency edges. -/

theorem regDepsF_reach (env : List Controller) (y : Nat)
    (reg1 : Nat → St → St × Except Err Unit) (isReg : Nat → Bool)
    (hreg : ∀ d st, y ∈ (reg1 d st).1.instances →
      y ∈ st.instances ∨ Reaches env d y) :
    ∀ ds st, y ∈ (regDepsF reg1 isReg ds st).1.instances →
      y ∈ st.instances ∨ ∃ d ∈ ds, Reaches env d y := by
  intro ds
  induction ds with
  | nil => intro st h; exact Or.inl (by simpa [regDepsF] using h)
  | cons d ds ihd =>
    intro st h
    simp only [regDepsF] at h
    split at h
    · rcases hr : reg1 d st with ⟨st', r⟩
      rw [hr] at h
      cases r with
      | ok u =>
        cases u
        rcases ihd st' h with h2 | ⟨d2, hd2, hr2⟩
        · rcases hreg d st (by rw [hr]; exact h2) with h3 | h3
          · exact Or.inl h3
          · exact Or.inr ⟨d, by simp, h3⟩
        · exact Or.inr ⟨d2, by simp [hd2], hr2⟩
      | error e =>
        rcases hreg d st (by rw [hr]; exact h) with h3 | h3
        · exact Or.inl h3
        · exact Or.inr ⟨d, by simp, h3⟩
    · exact Or.inl h

theorem regCtrl_reach (env : List Controller) (y : Nat) :
    ∀ fuel x st, y ∈ (regCtrl env fuel x st).1.instances →
      y ∈ st.instances ∨ Reaches env x y := by
  intro fuel
  induction fuel with
  | zero => intro x st h; exact Or.inl (by simpa [regCtrl] using h)
  | succ fuel ih =>
    intro x st h
    simp only [regCtrl] at h
    split at h
    · exact Or.inl h
    · split at h
      · exact Or.inl h
      · rcases hr : regDepsF (fun d st2 => regCtrl env fuel d st2)
            (fun d => decide (d ∈ registryIds env)) (depsOf env x)
            { st with inFlight := x :: st.inFlight } with ⟨st2, r⟩
        rw [hr] at h
        have hloop := regDepsF_reach env y
            (fun d st2 => regCtrl env fuel d st2)
            (fun d => decide (d ∈ registryIds env))
            (fun d st h2 => ih d st h2)
            (depsOf env x) { st with inFlight := x :: st.inFlight }
        cases r with
        | error e =>
          rcases hloop (by rw [hr]; exact h) with h2 | ⟨d, hd, hr2⟩
          · exact Or.inl h2
          · exact Or.inr (Reaches.step hd hr2)
        | ok u =>
          cases u
          rcases finishCtrl_spec env x st2 with ⟨-, hi, -⟩ | ⟨-, hi, -⟩
          · rw [hi] at h
            rcases List.mem_append.mp h with h2 | h2
            · rcases hloop (by rw [hr]; exact h2) with h3 | ⟨d, hd, hr2⟩
              · exact Or.inl h3
              · exact Or.inr (Reaches.step hd hr2)
            · simp at h2
              subst h2
              exact Or.inr (Reaches.refl _)
          · rw [hi] at h
            rcases hloop (by rw [hr]; exact h) with h3 | ⟨d, hd, hr2⟩
            · exact Or.inl h3
            · exact Or.inr (Reaches.step hd hr2)

/-- When the construct/init loop fails, its traversal list splits into a
prefix of fully registered components, the failing component, and an
unattempted suffix; everything in the instance table either predates the loop
or is dependency-reachable from the prefix or the failing component. -/
theorem startLoop_err_split (env : List Controller) (fuel : Nat) :
    ∀ l st, (startLoop env fuel l st).2 ≠ Except.ok () →
      ∃ pre f post, l = pre ++ f :: post ∧
        (∀ a ∈ pre, a ∈ (startLoop env fuel l st).1.instances) ∧
        (∀ y ∈ (startLoop env fuel l st).1.instances,
          y ∈ st.instances ∨ ∃ a ∈ pre ++ [f], Reaches env a y) := by
  intro l
  induction l with
  | nil => intro st h; simp [startLoop] at h
  | cons x xs ih =>
    intro st h
    simp only [startLoop] at h ⊢
    rcases hr : regCtrl env fuel x st with ⟨st1, r⟩
    rw [hr] at h
    cases r with
    | error e =>
      refine ⟨[], x, xs, by simp, by simp, ?_⟩
      intro y hy
      rcases regCtrl_reach env y fuel x st (by rw [hr]; exact hy) with h2 | h2
      · exact Or.inl h2
      · exact Or.inr ⟨x, by simp, h2⟩
    | ok u =>
      cases u
      rcases ih st1 h with ⟨pre, f, post, heq, hpre, hy⟩
      refine ⟨x :: pre, f, post, by simp [heq], ?_, ?_⟩
      · intro a ha
        rcases List.mem_cons.mp ha with rfl | ha2
        · have hm : a ∈ st1.instances := by
            have h2 := regCtrl_ok_mem env fuel a st (by rw [hr])
            rwa [hr] at h2
          exact startLoop_mem_instances env fuel a xs st1 hm
        · exact hpre a ha2
      · intro y hy2
        rcases hy y hy2 with h2 | ⟨a, ha, hr2⟩
        · rcases regCtrl_reach env y fuel x st (by rw [hr]; exact h2) with
            h3 | h3
          · exact Or.inl h3
          · exact Or.inr ⟨x, by simp, h3⟩
        · exact Or.inr ⟨a, by
            rcases List.mem_append.mp ha with h4 | h4
            · exact List.mem_append_left _ (List.mem_cons_of_mem _ h4)
            · exact List.mem_append_right _ h4, hr2⟩

/-! Preservation of the dependency-closure invariant `invSt`. -/

theorem get?_append_cases (l1 l2 : List Event) (i : Nat) (e : Event)
    (h : (l1 ++ l2).get? i = some e) :
    (i < l1.length ∧ l1.get? i = some e) ∨ (l1.length ≤ i ∧ e ∈ l2) := by
  by_cases hi : i < l1.length
  · exact Or.inl ⟨hi, by rwa [List.get?_append hi] at h⟩
  · push_neg at hi
    refine Or.inr ⟨hi, ?_⟩
    rw [List.get?_append_right hi] at h
    exact List.get?_mem h

theorem mem_get?_lt (l : List Event) (e : Event) (h : e ∈ l) :
    ∃ j, j < l.length ∧ l.get? j = some e := by
  rcases List.mem_iff_get?.mp h with ⟨j, hj⟩
  refine ⟨j, ?_, hj⟩
  by_contra hge
  push_neg at hge
  rw [List.get?_eq_none.mpr hge] at hj
  exact Option.noConfusion hj

theorem invSt_extend (env : List Controller) (st st' : St) (t : List Event)
    (h : invSt env st)
    (hi : st'.instances = st.instances)
    (ht : st'.trace = st.trace ++ t)
    (hs : ∀ z, Event.store z ∉ t)
    (hc : ∀ z, Event.construct z ∈ t → ∀ d ∈ depsOf env z, d ∈ st.instances) :
    invSt env st' := by
  rcases h with ⟨hclosed, hstore, hgood⟩
  refine ⟨?_, ?_, ?_⟩
  · rw [hi]; exact hclosed
  · intro z
    rw [hi, ht]
    constructor
    · intro hz
      exact List.mem_append_left _ ((hstore z).mp hz)
    · intro hz
      rcases List.mem_append.mp hz with h2 | h2
      · exact (hstore z).mpr h2
      · exact absurd h2 (hs z)
  · intro i z hiz d hd
    rw [ht] at hiz
    rcases get?_append_cases _ _ _ _ hiz with ⟨hlt, hold⟩ | ⟨hge, hmem⟩
    · rcases hgood i z hold d hd with ⟨j, hj, hjs⟩
      refine ⟨j, hj, ?_⟩
      rw [ht]
      have hjlt : j < st.trace.length := by
        by_contra hge2
        push_neg at hge2
        rw [List.get?_eq_none.mpr hge2] at hjs
        exact Option.noConfusion hjs
      rw [List.get?_append hjlt]
      exact hjs
    · have hdi : d ∈ st.instances := hc z hmem d hd
      rcases mem_get?_lt st.trace _ ((hstore d).mp hdi) with ⟨j, hjl, hjs⟩
      refine ⟨j, lt_of_lt_of_le hjl hge, ?_⟩
      rw [ht, List.get?_append hjl]
      exact hjs

theorem invSt_addInstance (env : List Controller) (x : Nat) (st st' : St)
    (t : List Event)
    (h : invSt env st)
    (hdeps : ∀ d ∈ depsOf env x, d ∈ st.instances)
    (hi : st'.instances = st.instances ++ [x])
    (ht : st'.trace = st.trace ++ t)
    (hstoret : ∀ z, Event.store z ∈ t ↔ z = x)
    (hconst : ∀ z, Event.construct z ∈ t → z = x) :
    invSt env st' := by
  rcases h with ⟨hclosed, hstore, hgood⟩
  refine ⟨?_, ?_, ?_⟩
  · intro z hz d hd
    rw [hi] at hz ⊢
    rcases List.mem_append.mp hz with h2 | h2
    · exact List.mem_append_left _ (hclosed z h2 d hd)
    · simp at h2
      subst h2
      exact List.mem_append_left _ (hdeps d hd)
  · intro z
    rw [hi, ht]
    constructor
    · intro hz
      rcases List.mem_append.mp hz with h2 | h2
      · exact List.mem_append_left _ ((hstore z).mp h2)
      · simp at h2
        subst h2
        exact List.mem_append_right _ ((hstoret z).mpr rfl)
    · intro hz
      rcases List.mem_append.mp hz with h2 | h2
      · exact List.mem_append_left _ ((hstore z).mpr h2)
      · rw [(hstoret z).mp h2]
        simp
  · intro i z hiz d hd
    rw [ht] at hiz
    rw [ht]
    rcases get?_append_cases _ _ _ _ hiz with ⟨hlt, hold⟩ | ⟨hge, hmem⟩
    · rcases hgood i z hold d hd with ⟨j, hj, hjs⟩
      refine ⟨j, hj, ?_⟩
      have hjlt : j < st.trace.length := by
        by_contra hge2
        push_neg at hge2
        rw [List.get?_eq_none.mpr hge2] at hjs
        exact Option.noConfusion hjs
      rw [List.get?_append hjlt]
      exact hjs
    · have hz : z = x := hconst z hmem
      subst hz
      have hdi : d ∈ st.instances := hdeps d hd
      rcases mem_get?_lt st.trace _ ((hstore d).mp hdi) with ⟨j, hjl, hjs⟩
      refine ⟨j, lt_of_lt_of_le hjl hge, ?_⟩
      rw [List.get?_append hjl]
      exact hjs

theorem finishCtrl_inv (env : List Controller) (x : Nat) (st : St)
    (h : invSt env st) (hdeps : ∀ d ∈ depsOf env x, d ∈ st.instances) :
    invSt env (finishCtrl env x st).1 := by
  simp only [finishCtrl, storeOk]
  split
  · refine invSt_extend env st _ [Event.construct x, Event.logError x]
      h rfl (by simp) ?_ ?_
    · intro z
      simp
    · intro z hz
      simp at hz
      subst hz
      exact hdeps
  · split
    · refine invSt_extend env st _
        [Event.construct x, Event.initRun x, Event.logError x]
        h rfl (by simp) ?_ ?_
      · intro z
        simp
      · intro z hz
        simp at hz
        subst hz
        exact hdeps
    · refine invSt_addInstance env x st _
        [Event.construct x, Event.initRun x, Event.store x]
        h hdeps rfl (by simp) ?_ ?_
      · intro z
        simp [eq_comm]
      · intro z hz
        simp at hz
        exact hz
    · refine invSt_addInstance env x st _
        [Event.construct x, Event.store x]
        h hdeps rfl (by simp) ?_ ?_
      · intro z
        simp [eq_comm]
      · intro z hz
        simp at hz
        exact hz

theorem regDepsF_ok_mem (env : List Controller) (fuel : Nat) :
    ∀ ds st st', regDepsF (fun d st2 => regCtrl env fuel d st2)
        (fun d => decide (d ∈ registryIds env)) ds st = (st', Except.ok ()) →
      ∀ d ∈ ds, d ∈ st'.instances := by
  intro ds
  induction ds with
  | nil => intro st st' _ d hd; simp at hd
  | cons d0 ds ih =>
    intro st st' h d hd
    simp only [regDepsF] at h
    split at h
    · rcases hr : regCtrl env fuel d0 st with ⟨st1, r⟩
      rw [hr] at h
      cases r with
      | error e => simp at h
      | ok u =>
        cases u
        rcases List.mem_cons.mp hd with rfl | hd2
        · have hm : d ∈ st1.instances := by
            have h2 := regCtrl_ok_mem env fuel d st (by rw [hr])
            rwa [hr] at h2
          have hmono := regDepsF_pres (fun s => d ∈ s.instances)
            (fun d2 st2 => regCtrl env fuel d2 st2)
            (fun d2 => decide (d2 ∈ registryIds env))
            (fun d2 s2 hP => regCtrl_mem_instances env d fuel d2 s2 hP)
            ds st1 hm
          have h2 : regDepsF (fun d2 st2 => regCtrl env fuel d2 st2)
              (fun d2 => decide (d2 ∈ registryIds env)) ds st1 =
              (st', Except.ok ()) := h
          rw [h2] at hmono
          exact hmono
        · exact ih st1 st' h d hd2
    · simp at h

theorem regCtrl_inv (env : List Controller) :
    ∀ fuel x st, invSt env st → invSt env (regCtrl env fuel x st).1 := by
  intro fuel
  induction fuel with
  | zero => intro x st h; simpa [regCtrl] using h
  | succ fuel ih =>
    intro x st h
    simp only [regCtrl]
    split
    · exact h
    · split
      · exact h
      · rcases hr : regDepsF (fun d st2 => regCtrl env fuel d st2)
            (fun d => decide (d ∈ registryIds env)) (depsOf env x)
            { st with inFlight := x :: st.inFlight } with ⟨st2, r⟩
        have hinv2 : invSt env st2 := by
          have h2 := regDepsF_pres (invSt env)
              (fun d st2 => regCtrl env fuel d st2)
              (fun d => decide (d ∈ registryIds env))
              (fun d s hP => ih d s hP) (depsOf env x)
              { st with inFlight := x :: st.inFlight } h
          rwa [hr] at h2
        cases r with
        | error e => exact hinv2
        | ok u =>
          cases u
          exact finishCtrl_inv env x st2 hinv2
            (regDepsF_ok_mem env fuel (depsOf env x) _ st2 hr)

theorem invSt_init (env : List Controller) : invSt env St.init := by
  refine ⟨?_, ?_, ?_⟩
  · intro z hz; simp [St.init] at hz
  · intro z; simp [St.init]
  · intro i z hiz; simp [St.init] at hiz

theorem runStartHooks_inFlight (env : List Controller) :
    ∀ l st, (runStartHooks env l st).inFlight = st.inFlight := by
  intro l
  induction l with
  | nil => intro st; rfl
  | cons x xs ih =>
    intro st
    rcases hh : startHookOf env x with - | b
    · simp only [runStartHooks, hh]
      exact ih st
    · simp only [runStartHooks, hh]
      exact ih _

theorem runStartHooks_inv (env : List Controller) :
    ∀ l st, invSt env st → invSt env (runStartHooks env l st) := by
  intro l st h
  rcases runStartHooks_trace_ext env l st with ⟨t, ht, hte⟩
  refine invSt_extend env st _ t h (runStartHooks_instances env l st) ht ?_ ?_
  · intro z hz
    rcases hte _ hz with ⟨y, hy | hy⟩ <;> simp at hy
  · intro z hz
    rcases hte _ hz with ⟨y, hy | hy⟩ <;> simp at hy

theorem startLoop_inv (env : List Controller) (fuel : Nat) :
    ∀ l st, invSt env st → invSt env (startLoop env fuel l st).1 :=
  fun l st h => startLoop_pres env fuel (invSt env)
    (fun x s hP => regCtrl_inv env fuel x s hP) l st h

theorem startState_inv (env : List Controller) (st : St)
    (h : invSt env st) : invSt env (startState env st) := by
  rw [startState]
  split
  · exact invSt_extend env st _ [Event.warnEmpty] h rfl rfl
      (by intro z; simp) (by intro z hz; simp at hz)
  · exact invSt_extend env st _ [] h rfl (by simp)
      (by intro z; simp) (by intro z hz; simp at hz)

/-- The invariant holds after a full `AppLife.Start` run (whether the run
succeeds or fails). -/
theorem appStart_inv (env : List Controller) (st : St) (h : invSt env st) :
    invSt env (appStart env st).1 := by
  simp only [appStart]
  rcases hr : startLoop env (env.length + 1) (sortedIds env)
      (startState env st) with ⟨st1, r⟩
  have hinv1 : invSt env st1 := by
    have h2 := startLoop_inv env (env.length + 1) (sortedIds env)
      (startState env st) (startState_inv env st h)
    rwa [hr] at h2
  cases r with
  | error e => exact hinv1
  | ok u =>
    cases u
    exact runStartHooks_inv env (sortedIds env) st1 hinv1

/-! Cycle detection: an in-flight identity blocks itself and every identity
that depends on it. -/

theorem regCtrl_inFlight_cyclic (env : List Controller) (fuel a : Nat)
    (st : St) (h1 : a ∈ st.inFlight) (h2 : a ∉ st.instances) :
    regCtrl env (fuel+1) a st = (st, Except.error Err.cyclic) := by
  simp only [regCtrl, if_neg h2, if_pos h1]

theorem regCtrl_inFlight_err (env : List Controller) (fuel a : Nat) (st : St)
    (h1 : a ∈ st.inFlight) (h2 : a ∉ st.instances) :
    ∃ e, (regCtrl env fuel a st).2 = Except.error e := by
  cases fuel with
  | zero => exact ⟨Err.outOfFuel, rfl⟩
  | succ fuel =>
    rw [regCtrl_inFlight_cyclic env fuel a st h1 h2]
    exact ⟨Err.cyclic, rfl⟩

theorem regDepsF_err_inFlight (env : List Controller) (fuel a : Nat) :
    ∀ ds st, a ∈ ds → a ∈ st.inFlight → a ∉ st.instances →
      ∃ e, (regDepsF (fun d st2 => regCtrl env fuel d st2)
        (fun d => decide (d ∈ registryIds env)) ds st).2 = Except.error e := by
  intro ds
  induction ds with
  | nil => intro st ha; simp at ha
  | cons d ds ih =>
    intro st ha h1 h2
    simp only [regDepsF]
    split
    · rcases hr : regCtrl env fuel d st with ⟨st1, r⟩
      cases r with
      | error e => exact ⟨e, rfl⟩
      | ok u =>
        cases u
        have hda : d ≠ a := by
          intro hda
          subst hda
          rcases regCtrl_inFlight_err env fuel d st h1 h2 with ⟨e, he⟩
          rw [hr] at he
          simp at he
        have ha2 : a ∈ ds := by
          rcases List.mem_cons.mp ha with h | h
          · exact absurd h.symm hda
          · exact h
        have hst1 := regCtrl_sticky env a fuel d st h1 h2
        rw [hr] at hst1
        exact ih st1 ha2 hst1.1 hst1.2.1
    · exact ⟨Err.depNotRegistered d, rfl⟩

theorem regCtrl_err_depInFlight (env : List Controller) (a b : Nat)
    (hba : a ∈ depsOf env b) :
    ∀ fuel st, a ∈ st.inFlight → a ∉ st.instances → b ∉ st.instances →
      ∃ e, (regCtrl env fuel b st).2 = Except.error e := by
  intro fuel st h1 h2 h3
  cases fuel with
  | zero => exact ⟨Err.outOfFuel, rfl⟩
  | succ fuel =>
    simp only [regCtrl, if_neg h3]
    by_cases hbf : b ∈ st.inFlight
    · rw [if_pos hbf]
      exact ⟨Err.cyclic, rfl⟩
    · rw [if_neg hbf]
      have h1' : a ∈ ({ st with inFlight := b :: st.inFlight } : St).inFlight :=
        List.mem_cons_of_mem _ h1
      rcases regDepsF_err_inFlight env fuel a (depsOf env b)
        { st with inFlight := b :: st.inFlight } hba h1' h2 with ⟨e, he⟩
      rcases hr : regDepsF (fun d st2 => regCtrl env fuel d st2)
          (fun d => decide (d ∈ registryIds env)) (depsOf env b)
          { st with inFlight := b :: st.inFlight } with ⟨st2, r⟩
      rw [hr] at he
      cases r with
      | error e2 => exact ⟨e2, rfl⟩
      | ok u => simp at he

theorem regCtrl_cycle_sticky (env : List Controller) (a b : Nat)
    (hba : a ∈ depsOf env b) :
    ∀ fuel y st, a ∈ st.inFlight → a ∉ st.instances → b ∉ st.instances →
      a ∈ (regCtrl env fuel y st).1.inFlight ∧
      a ∉ (regCtrl env fuel y st).1.instances ∧
      b ∉ (regCtrl env fuel y st).1.instances := by
  intro fuel
  induction fuel with
  | zero => intro y st h1 h2 h3; simpa [regCtrl] using ⟨h1, h2, h3⟩
  | succ fuel ih =>
    intro y st h1 h2 h3
    simp only [regCtrl]
    split
    · exact ⟨h1, h2, h3⟩
    · split
      · exact ⟨h1, h2, h3⟩
      · rename_i hy1 hy2
        have hya : y ≠ a := fun h => hy2 (h ▸ h1)
        rcases hr : regDepsF (fun d st2 => regCtrl env fuel d st2)
            (fun d => decide (d ∈ registryIds env)) (depsOf env y)
            { st with inFlight := y :: st.inFlight } with ⟨st2, r⟩
        have hP2 : a ∈ st2.inFlight ∧ a ∉ st2.instances ∧
            b ∉ st2.instances := by
          have h4 := regDepsF_pres
            (fun s => a ∈ s.inFlight ∧ a ∉ s.instances ∧ b ∉ s.instances)
            (fun d st2 => regCtrl env fuel d st2)
            (fun d => decide (d ∈ registryIds env))
            (fun d s hP => ih d s hP.1 hP.2.1 hP.2.2)
            (depsOf env y) { st with inFlight := y :: st.inFlight }
            ⟨List.mem_cons_of_mem _ h1, h2, h3⟩
          rwa [hr] at h4
        cases r with
        | error e => exact hP2
        | ok u =>
          cases u
          by_cases hyb : y = b
          · subst hyb
            rcases regDepsF_err_inFlight env fuel a (depsOf env y)
              { st with inFlight := y :: st.inFlight }
              hba (List.mem_cons_of_mem _ h1) h2 with ⟨e, he⟩
            rw [hr] at he
            simp at he
          · rcases finishCtrl_spec env y st2 with ⟨-, hi, hf⟩ | ⟨-, hi, hf⟩
            · refine ⟨?_, ?_, ?_⟩
              · rw [hf]
                exact (List.mem_erase_of_ne hya.symm).mpr hP2.1
              · rw [hi]
                intro hmem
                rcases List.mem_append.mp hmem with h5 | h5
                · exact hP2.2.1 h5
                · simp at h5
                  exact hya h5.symm
              · rw [hi]
                intro hmem
                rcases List.mem_append.mp hmem with h5 | h5
                · exact hP2.2.2 h5
                · simp at h5
                  exact hyb h5.symm
            · rw [hi, hf]
              exact hP2

theorem regDepsF_err_cycleB (env : List Controller) (fuel a b : Nat)
    (hba : a ∈ depsOf env b) :
    ∀ ds st, b ∈ ds → a ∈ st.inFlight → a ∉ st.instances →
      b ∉ st.instances →
      ∃ e, (regDepsF (fun d st2 => regCtrl env fuel d st2)
        (fun d => decide (d ∈ registryIds env)) ds st).2 = Except.error e := by
  intro ds
  induction ds with
  | nil => intro st hb; simp at hb
  | cons d ds ih =>
    intro st hb h1 h2 h3
    simp only [regDepsF]
    split
    · rcases hr : regCtrl env fuel d st with ⟨st1, r⟩
      cases r with
      | error e => exact ⟨e, rfl⟩
      | ok u =>
        cases u
        have hdb : d ≠ b := by
          intro hdb
          subst hdb
          rcases regCtrl_err_depInFlight env a d hba fuel st h1 h2 h3 with
            ⟨e, he⟩
          rw [hr] at he
          simp at he
        have hb2 : b ∈ ds := by
          rcases List.mem_cons.mp hb with h | h
          · exact absurd h.symm hdb
          · exact h
        have hst1 := regCtrl_cycle_sticky env a b hba fuel d st h1 h2 h3
        rw [hr] at hst1
        exact ih st1 hb2 hst1.1 hst1.2.1 hst1.2.2
    · exact ⟨Err.depNotRegistered d, rfl⟩

/-- Members of a declared two-cycle (or self-cycle, taking `a = b`) are never
stored in the instance table by any `registerController` call. -/
theorem regCtrl_cycle_notStored (env : List Controller) (a b : Nat)
    (hab : b ∈ depsOf env a) (hba : a ∈ depsOf env b) :
    ∀ fuel x st, a ∉ st.instances → b ∉ st.instances →
      a ∉ (regCtrl env fuel x st).1.instances ∧
      b ∉ (regCtrl env fuel x st).1.instances := by
  intro fuel
  induction fuel with
  | zero => intro x st h2 h3; simpa [regCtrl] using ⟨h2, h3⟩
  | succ fuel ih =>
    intro x st h2 h3
    simp only [regCtrl]
    split
    · exact ⟨h2, h3⟩
    · split
      · exact ⟨h2, h3⟩
      · rename_i hx1 hx2
        rcases hr : regDepsF (fun d st2 => regCtrl env fuel d st2)
            (fun d => decide (d ∈ registryIds env)) (depsOf env x)
            { st with inFlight := x :: st.inFlight } with ⟨st2, r⟩
        by_cases hxa : x = a
        · subst hxa
          have hP2 : x ∈ st2.inFlight ∧ x ∉ st2.instances ∧
              b ∉ st2.instances := by
            have h4 := regDepsF_pres
              (fun s => x ∈ s.inFlight ∧ x ∉ s.instances ∧ b ∉ s.instances)
              (fun d st2 => regCtrl env fuel d st2)
              (fun d => decide (d ∈ registryIds env))
              (fun d s hP => regCtrl_cycle_sticky env x b hba fuel d s
                hP.1 hP.2.1 hP.2.2)
              (depsOf env x) { st with inFlight := x :: st.inFlight }
              ⟨List.mem_cons_self _ _, h2, h3⟩
            rwa [hr] at h4
          cases r with
          | error e => exact ⟨hP2.2.1, hP2.2.2⟩
          | ok u =>
            cases u
            rcases regDepsF_err_cycleB env fuel x b hba (depsOf env x)
              { st with inFlight := x :: st.inFlight } hab
              (List.mem_cons_self _ _) h2 h3 with ⟨e, he⟩
            rw [hr] at he
            simp at he
        · by_cases hxb : x = b
          · subst hxb
            have hP2 : x ∈ st2.inFlight ∧ x ∉ st2.instances ∧
                a ∉ st2.instances := by
              have h4 := regDepsF_pres
                (fun s => x ∈ s.inFlight ∧ x ∉ s.instances ∧ a ∉ s.instances)
                (fun d st2 => regCtrl env fuel d st2)
                (fun d => decide (d ∈ registryIds env))
                (fun d s hP => regCtrl_cycle_sticky env x a hab fuel d s
                  hP.1 hP.2.1 hP.2.2)
                (depsOf env x) { st with inFlight := x :: st.inFlight }
                ⟨List.mem_cons_self _ _, h3, h2⟩
              rwa [hr] at h4
            cases r with
            | error e => exact ⟨hP2.2.2, hP2.2.1⟩
            | ok u =>
              cases u
              rcases regDepsF_err_cycleB env fuel x a hab (depsOf env x)
                { st with inFlight := x :: st.inFlight } hba
                (List.mem_cons_self _ _) h3 h2 with ⟨e, he⟩
              rw [hr] at he
              simp at he
          · have hP2 : a ∉ st2.instances ∧ b ∉ st2.instances := by
              have h4 := regDepsF_pres
                (fun s => a ∉ s.instances ∧ b ∉ s.instances)
                (fun d st2 => regCtrl env fuel d st2)
                (fun d => decide (d ∈ registryIds env))
                (fun d s hP => ih d s hP.1 hP.2)
                (depsOf env x) { st with inFlight := x :: st.inFlight }
                ⟨h2, h3⟩
              rwa [hr] at h4
            cases r with
            | error e => exact hP2
            | ok u =>
              cases u
              rcases finishCtrl_spec env x st2 with ⟨-, hi, -⟩ | ⟨-, hi, -⟩
              · rw [hi]
                constructor
                · intro hmem
                  rcases List.mem_append.mp hmem with h5 | h5
                  · exact hP2.1 h5
                  · simp at h5
                    exact hxa h5.symm
                · intro hmem
                  rcases List.mem_append.mp hmem with h5 | h5
                  · exact hP2.2 h5
                  · simp at h5
                    exact hxb h5.symm
              · rw [hi]
                exact hP2

theorem startLoop_cycle_notStored (env : List Controller) (fuel a b : Nat)
    (hab : b ∈ depsOf env a) (hba : a ∈ depsOf env b) :
    ∀ l st, a ∉ st.instances → b ∉ st.instances →
      a ∉ (startLoop env fuel l st).1.instances ∧
      b ∉ (startLoop env fuel l st).1.instances := by
  intro l st h2 h3
  exact startLoop_pres env fuel
    (fun s => a ∉ s.instances ∧ b ∉ s.instances)
    (fun x s hP => regCtrl_cycle_notStored env a b hab hba fuel x s hP.1 hP.2)
    l st ⟨h2, h3⟩

/-! Fuel adequacy: the only construct/init-phase error under a closed,
benign registry is the cyclic-dependency one. -/

theorem length_filter_mono {α : Type} (p q : α → Bool) :
    ∀ l : List α, (∀ x ∈ l, p x = true → q x = true) →
      (l.filter p).length ≤ (l.filter q).length := by
  intro l
  induction l with
  | nil => intro _; simp
  | cons x xs ih =>
    intro h
    rw [List.filter_cons, List.filter_cons]
    have htail := ih (fun y hy hp => h y (by simp [hy]) hp)
    by_cases hp : p x = true
    · rw [if_pos hp, if_pos (h x (by simp) hp)]
      simpa using htail
    · rw [if_neg hp]
      by_cases hq : q x = true
      · rw [if_pos hq]
        exact le_trans htail (by simp)
      · rw [if_neg hq]
        exact htail

theorem length_filter_lt {α : Type} [DecidableEq α] (p q : α → Bool) (x : α) :
    ∀ l : List α, l.Nodup → x ∈ l → q x = true → p x = false →
      (∀ y ∈ l, p y = true → q y = true) →
      (l.filter p).length < (l.filter q).length := by
  intro l
  induction l with
  | nil => intro _ hx; simp at hx
  | cons z zs ih =>
    intro hnd hx hq hp h
    have hnd2 := List.nodup_cons.mp hnd
    rw [List.filter_cons, List.filter_cons]
    rcases List.mem_cons.mp hx with heq | hx2
    · rw [heq] at hq hp
      rw [if_pos hq, if_neg (by simp [hp])]
      have htail := length_filter_mono p q zs
        (fun y hy hpy => h y (by simp [hy]) hpy)
      simpa using Nat.lt_succ_of_le htail
    · have htail := ih hnd2.2 hx2 hq hp (fun y hy hpy => h y (by simp [hy]) hpy)
      by_cases hpz : p z = true
      · rw [if_pos hpz, if_pos (h z (by simp) hpz)]
        simpa using htail
      · rw [if_neg hpz]
        by_cases hqz : q z = true
        · rw [if_pos hqz]
          exact lt_of_lt_of_le htail (by simp)
        · rw [if_neg hqz]
          exact htail

theorem freeIds_mono (env : List Controller) :
    ∀ fuel x st,
      (freeIds env (regCtrl env fuel x st).1).length ≤
        (freeIds env st).length := by
  intro fuel x st
  apply length_filter_mono
  intro i _ hp
  simp only [Bool.and_eq_true, decide_eq_true_eq] at hp ⊢
  by_contra hq
  rw [not_and_or] at hq
  have hi : i ∈ st.inFlight ∨ i ∈ st.instances := by
    rcases hq with hq | hq
    · exact Or.inl (not_not.mp hq)
    · exact Or.inr (not_not.mp hq)
  rcases regCtrl_union_mono env i fuel x st hi with h2 | h2
  · exact hp.1 h2
  · exact hp.2 h2

theorem freeIds_lt (env : List Controller) (x : Nat) (st : St)
    (hnd : (registryIds env).Nodup) (hx : x ∈ registryIds env)
    (h1 : x ∉ st.inFlight) (h2 : x ∉ st.instances) :
    (freeIds env { st with inFlight := x :: st.inFlight }).length <
      (freeIds env st).length := by
  apply length_filter_lt _ _ x _ hnd hx
  · simp [h1, h2]
  · simp
  · intro y _ hp
    simp only [Bool.and_eq_true, decide_eq_true_eq] at hp ⊢
    exact ⟨fun hy => hp.1 (List.mem_cons_of_mem _ hy), hp.2⟩

theorem findCtrl_mem (env : List Controller) (x : Nat) (c : Controller)
    (h : findCtrl env x = some c) : c ∈ env ∧ c.id = x := by
  unfold findCtrl at h
  have h1 := List.mem_of_find?_eq_some h
  have h2 := List.find?_some h
  simp at h2
  exact ⟨h1, h2⟩

theorem depsOf_closed (env : List Controller)
    (hclosed : ∀ c ∈ env, ∀ d ∈ c.deps, d ∈ registryIds env) (x : Nat) :
    ∀ d ∈ depsOf env x, d ∈ registryIds env := by
  intro d hd
  unfold depsOf at hd
  rcases hf : findCtrl env x with - | c
  · rw [hf] at hd
    simp at hd
  · rw [hf] at hd
    simp at hd
    exact hclosed c (findCtrl_mem env x c hf).1 d hd

theorem benign_props (env : List Controller)
    (hbenign : ∀ c ∈ env, c.ctorFails = false ∧ c.initHook ≠ some true)
    (x : Nat) : ctorFailsOf env x = false ∧ initHookOf env x ≠ some true := by
  unfold ctorFailsOf initHookOf
  rcases hf : findCtrl env x with - | c
  · simp
  · simpa using hbenign c (findCtrl_mem env x c hf).1

theorem finishCtrl_ok_benign (env : List Controller) (x : Nat) (st : St)
    (hc : ctorFailsOf env x = false) (hi : initHookOf env x ≠ some true) :
    (finishCtrl env x st).2 = Except.ok () := by
  simp only [finishCtrl, hc]
  rcases hh : initHookOf env x with - | b
  · simp [hh]
  · cases b with
    | false => simp [hh]
    | true => exact absurd hh hi

theorem regDepsF_err_class_aux (env : List Controller) (fuel : Nat)
    (hcls : ∀ x st, x ∈ registryIds env → (freeIds env st).length < fuel →
      ∀ e, (regCtrl env fuel x st).2 = Except.error e → e = Err.cyclic) :
    ∀ ds st, (∀ d ∈ ds, d ∈ registryIds env) →
      (freeIds env st).length < fuel →
      ∀ e, (regDepsF (fun d st2 => regCtrl env fuel d st2)
        (fun d => decide (d ∈ registryIds env)) ds st).2 = Except.error e →
      e = Err.cyclic := by
  intro ds
  induction ds with
  | nil => intro st _ _ e he; simp [regDepsF] at he
  | cons d ds ih =>
    intro st hds hlt e he
    simp only [regDepsF] at he
    split at he
    · rcases hr : regCtrl env fuel d st with ⟨st1, r⟩
      rw [hr] at he
      cases r with
      | error e2 =>
        have he2 : e2 = e := by simpa using he
        subst he2
        exact hcls d st (hds d (by simp)) hlt e2 (by rw [hr])
      | ok u =>
        cases u
        have hlt1 : (freeIds env st1).length < fuel := by
          have hm := freeIds_mono env fuel d st
          rw [hr] at hm
          have hm2 : (freeIds env st1).length ≤ (freeIds env st).length := hm
          omega
        exact ih st1 (fun d2 hd2 => hds d2 (by simp [hd2])) hlt1 e he
    · rename_i hdreg
      simp at hdreg
      exact absurd (hds d (by simp)) hdreg

theorem regCtrl_err_class (env : List Controller)
    (hnd : (registryIds env).Nodup)
    (hclosed : ∀ c ∈ env, ∀ d ∈ c.deps, d ∈ registryIds env)
    (hbenign : ∀ c ∈ env, c.ctorFails = false ∧ c.initHook ≠ some true) :
    ∀ fuel x st, x ∈ registryIds env →
      (freeIds env st).length < fuel →
      ∀ e, (regCtrl env fuel x st).2 = Except.error e → e = Err.cyclic := by
  intro fuel
  induction fuel with
  | zero => intro x st _ hlt e _; exact absurd hlt (Nat.not_lt_zero _)
  | succ fuel ih =>
    intro x st hx hlt e he
    simp only [regCtrl] at he
    split at he
    · simp at he
    · split at he
      · have : Err.cyclic = e := by simpa using he
        exact this.symm
      · rename_i hx1 hx2
        rcases hr : regDepsF (fun d st2 => regCtrl env fuel d st2)
            (fun d => decide (d ∈ registryIds env)) (depsOf env x)
            { st with inFlight := x :: st.inFlight } with ⟨st2, r⟩
        rw [hr] at he
        have hlt1 : (freeIds env
            { st with inFlight := x :: st.inFlight }).length < fuel := by
          have hstrict := freeIds_lt env x st hnd hx hx2 hx1
          omega
        cases r with
        | error e2 =>
          have he2 : e2 = e := by simpa using he
          subst he2
          exact regDepsF_err_class_aux env fuel ih (depsOf env x)
            { st with inFlight := x :: st.inFlight }
            (depsOf_closed env hclosed x) hlt1 e2 (by rw [hr])
        | ok u =>
          cases u
          have hok := finishCtrl_ok_benign env x st2
            (benign_props env hbenign x).1 (benign_props env hbenign x).2
          rw [hok] at he
          simp at he

theorem startLoop_err_class (env : List Controller)
    (hnd : (registryIds env).Nodup)
    (hclosed : ∀ c ∈ env, ∀ d ∈ c.deps, d ∈ registryIds env)
    (hbenign : ∀ c ∈ env, c.ctorFails = false ∧ c.initHook ≠ some true)
    (fuel : Nat) :
    ∀ l st, (∀ y ∈ l, y ∈ registryIds env) →
      (freeIds env st).length < fuel →
      ∀ e, (startLoop env fuel l st).2 = Except.error e → e = Err.cyclic := by
  intro l
  induction l with
  | nil => intro st _ _ e he; simp [startLoop] at he
  | cons x xs ih =>
    intro st hl hlt e he
    simp only [startLoop] at he
    rcases hr : regCtrl env fuel x st with ⟨st1, r⟩
    rw [hr] at he
    cases r with
    | error e2 =>
      have he2 : e2 = e := by simpa using he
      subst he2
      exact regCtrl_err_class env hnd hclosed hbenign fuel x st
        (hl x (by simp)) hlt e2 (by rw [hr])
    | ok u =>
      cases u
      have hlt1 : (freeIds env st1).length < fuel := by
        have hm := freeIds_mono env fuel x st
        rw [hr] at hm
        have hm2 : (freeIds env st1).length ≤ (freeIds env st).length := hm
        omega
      exact ih st1 (fun y hy => hl y (by simp [hy])) hlt1 e he

/-! Construction-attempt traces of dependency-free registries. -/

theorem constructsOf_append (l1 l2 : List Event) :
    constructsOf (l1 ++ l2) = constructsOf l1 ++ constructsOf l2 := by
  simp [constructsOf]

theorem constructsOf_single_construct (x : Nat) :
    constructsOf [Event.construct x] = [x] := rfl

theorem regCtrl_no_deps (env : List Controller) (fuel x : Nat) (st : St)
    (hdeps : depsOf env x = []) (hctor : ctorFailsOf env x = false)
    (hinit : initHookOf env x ≠ some true)
    (hx1 : x ∉ st.instances) (hx2 : x ∉ st.inFlight) :
    (regCtrl env (fuel+1) x st).2 = Except.ok () ∧
    (regCtrl env (fuel+1) x st).1.instances = st.instances ++ [x] ∧
    (regCtrl env (fuel+1) x st).1.inFlight = st.inFlight ∧
    constructsOf (regCtrl env (fuel+1) x st).1.trace =
      constructsOf st.trace ++ [x] := by
  simp only [regCtrl, if_neg hx1, if_neg hx2, hdeps, regDepsF]
  simp only [finishCtrl, hctor, Bool.false_eq_true, if_false, storeOk]
  rcases hh : initHookOf env x with - | b
  · simp [constructsOf_append, constructsOf, List.erase_cons_head]
  · cases b with
    | false =>
      simp [constructsOf_append, constructsOf, List.erase_cons_head]
    | true => exact absurd hh hinit

theorem startLoop_no_deps (env : List Controller) (fuel : Nat) :
    ∀ l st,
      (∀ x ∈ l, depsOf env x = [] ∧ ctorFailsOf env x = false ∧
        initHookOf env x ≠ some true) →
      l.Nodup → (∀ x ∈ l, x ∉ st.instances) → (∀ x ∈ l, x ∉ st.inFlight) →
      (startLoop env (fuel+1) l st).2 = Except.ok () ∧
      (startLoop env (fuel+1) l st).1.instances = st.instances ++ l ∧
      (startLoop env (fuel+1) l st).1.inFlight = st.inFlight ∧
      constructsOf (startLoop env (fuel+1) l st).1.trace =
        constructsOf st.trace ++ l := by
  intro l
  induction l with
  | nil => intro st _ _ _ _; simp [startLoop]
  | cons x xs ih =>
    intro st hb hnd hi hf
    have hnd2 := List.nodup_cons.mp hnd
    rcases hb x (by simp) with ⟨hd1, hd2, hd3⟩
    have hstep := regCtrl_no_deps env fuel x st hd1 hd2 hd3
      (hi x (by simp)) (hf x (by simp))
    simp only [startLoop]
    rcases hr : regCtrl env (fuel+1) x st with ⟨st1, r⟩
    rw [hr] at hstep
    cases r with
    | error e => simp at hstep
    | ok u =>
      cases u
      have hrec := ih st1 (fun y hy => hb y (by simp [hy]))
        hnd2.2
        (fun y hy => by
          rw [hstep.2.1]
          intro hmem
          rcases List.mem_append.mp hmem with h2 | h2
          · exact hi y (by simp [hy]) h2
          · simp at h2
            subst h2
            exact hnd2.1 hy)
        (fun y hy => by
          rw [hstep.2.2.1]
          exact hf y (by simp [hy]))
      refine ⟨hrec.1, ?_, ?_, ?_⟩
      · rw [hrec.2.1, hstep.2.1, List.append_assoc]
        rfl
      · rw [hrec.2.2.1, hstep.2.2.1]
      · rw [hrec.2.2.2, hstep.2.2.2, List.append_assoc]
        rfl

theorem runStartHooks_constructs (env : List Controller) :
    ∀ l st, constructsOf (runStartHooks env l st).trace =
      constructsOf st.trace := by
  intro l st
  rcases runStartHooks_trace_ext env l st with ⟨t, ht, hte⟩
  rw [ht, constructsOf_append]
  have h0 : constructsOf t = [] := by
    rw [constructsOf, List.filterMap_eq_nil]
    intro e he
    rcases hte e he with ⟨y, rfl | rfl⟩ <;> rfl
  rw [h0, List.append_nil]

/-! Basic facts about `startState` and a case split for `appStart`. -/

theorem startState_instances (env : List Controller) (st : St) :
    (startState env st).instances = st.instances := by
  rw [startState]; split <;> rfl

theorem startState_inFlight (env : List Controller) (st : St) :
    (startState env st).inFlight = st.inFlight := by
  rw [startState]; split <;> rfl

theorem startState_started (env : List Controller) (st : St) :
    (startState env st).started = true := by
  rw [startState]; split <;> rfl

theorem startState_constructs (env : List Controller) (st : St) :
    constructsOf (startState env st).trace = constructsOf st.trace := by
  rw [startState]
  split
  · show constructsOf (st.trace ++ [Event.warnEmpty]) = constructsOf st.trace
    rw [constructsOf_append]
    simp [constructsOf]
  · rfl

theorem appStart_cases (env : List Controller) (st : St) :
    (∃ st1 e, startLoop env (env.length + 1) (sortedIds env)
        (startState env st) = (st1, Except.error e) ∧
      appStart env st = (st1, Except.error e)) ∨
    (∃ st1, startLoop env (env.length + 1) (sortedIds env)
        (startState env st) = (st1, Except.ok ()) ∧
      appStart env st =
        (runStartHooks env (sortedIds env) st1, Except.ok ())) := by
  rcases hr : startLoop env (env.length + 1) (sortedIds env)
      (startState env st) with ⟨st1, r⟩
  cases r with
  | error e =>
    exact Or.inl ⟨st1, e, rfl, by simp [appStart, hr, finishStart]⟩
  | ok u =>
    cases u
    exact Or.inr ⟨st1, rfl, by simp [appStart, hr, finishStart]⟩

/-! Unregistered dependencies and the fate of a failing registration. -/

theorem regDepsF_err_unreg (env : List Controller) (fuel D : Nat)
    (hDreg : D ∉ registryIds env) :
    ∀ ds st, D ∈ ds →
      ∃ e, (regDepsF (fun d st2 => regCtrl env fuel d st2)
        (fun d => decide (d ∈ registryIds env)) ds st).2 = Except.error e := by
  intro ds
  induction ds with
  | nil => intro st hD; simp at hD
  | cons d ds ih =>
    intro st hD
    simp only [regDepsF]
    split
    · rename_i hdreg
      simp at hdreg
      have hdD : d ≠ D := fun h => hDreg (h ▸ hdreg)
      have hD2 : D ∈ ds := by
        rcases List.mem_cons.mp hD with h | h
        · exact absurd h.symm hdD
        · exact h
      rcases hr : regCtrl env fuel d st with ⟨st1, r⟩
      cases r with
      | error e => exact ⟨e, rfl⟩
      | ok u => cases u; exact ih st1 hD2
    · exact ⟨Err.depNotRegistered d, rfl⟩

theorem regCtrl_unreg_notConstructed (env : List Controller) (C D : Nat)
    (hD : D ∈ depsOf env C) (hDreg : D ∉ registryIds env) :
    ∀ fuel st, C ∉ st.instances →
      (∃ e, (regCtrl env fuel C st).2 = Except.error e) ∧
      C ∉ (regCtrl env fuel C st).1.instances ∧
      ∃ t, (regCtrl env fuel C st).1.trace = st.trace ++ t ∧
        Event.construct C ∉ t := by
  intro fuel st hC
  cases fuel with
  | zero =>
    exact ⟨⟨Err.outOfFuel, rfl⟩, hC, [], by simp [regCtrl], by simp⟩
  | succ fuel =>
    simp only [regCtrl, if_neg hC]
    by_cases hCf : C ∈ st.inFlight
    · rw [if_pos hCf]
      exact ⟨⟨Err.cyclic, rfl⟩, hC, [], by simp, by simp⟩
    · rw [if_neg hCf]
      rcases hr : regDepsF (fun d st2 => regCtrl env fuel d st2)
          (fun d => decide (d ∈ registryIds env)) (depsOf env C)
          { st with inFlight := C :: st.inFlight } with ⟨st2, r⟩
      have hP2 : C ∈ st2.inFlight ∧ C ∉ st2.instances ∧
          ∃ t, st2.trace = st.trace ++ t ∧ Event.construct C ∉ t := by
        have h4 := regDepsF_pres
          (fun s => C ∈ s.inFlight ∧ C ∉ s.instances ∧
            ∃ t, s.trace = st.trace ++ t ∧ Event.construct C ∉ t)
          (fun d st2 => regCtrl env fuel d st2)
          (fun d => decide (d ∈ registryIds env))
          (fun d s hP => by
            have hs := regCtrl_sticky env C fuel d s hP.1 hP.2.1
            rcases hP.2.2 with ⟨t, ht, htc⟩
            rcases hs.2.2 with ⟨t2, ht2, htc2, -⟩
            refine ⟨hs.1, hs.2.1, t ++ t2, ?_, ?_⟩
            · rw [ht2, ht, List.append_assoc]
            · intro hmem
              rcases List.mem_append.mp hmem with h5 | h5
              · exact htc h5
              · exact htc2 h5)
          (depsOf env C) { st with inFlight := C :: st.inFlight }
          ⟨List.mem_cons_self _ _, hC, [], by simp, by simp⟩
        rwa [hr] at h4
      rcases regDepsF_err_unreg env fuel D hDreg (depsOf env C)
        { st with inFlight := C :: st.inFlight } hD with ⟨e, he⟩
      rw [hr] at he
      cases r with
      | ok u => simp at he
      | error e2 =>
        exact ⟨⟨e2, rfl⟩, hP2.2.1, hP2.2.2⟩

theorem regCtrl_cached (env : List Controller) (fuel x : Nat) (st : St)
    (h : x ∈ st.instances) :
    regCtrl env (fuel+1) x st = (st, Except.ok ()) := by
  simp only [regCtrl, if_pos h]

theorem regCtrl_unreg_exact (env : List Controller) (fuel C D : Nat)
    (ds1 ds2 : List Nat) (st : St)
    (hsplit : depsOf env C = ds1 ++ D :: ds2)
    (hds1 : ∀ d ∈ ds1, d ∈ st.instances ∧ d ∈ registryIds env)
    (hDreg : D ∉ registryIds env)
    (hC1 : C ∉ st.instances) (hC2 : C ∉ st.inFlight) :
    regCtrl env (fuel+2) C st =
      ({ st with inFlight := C :: st.inFlight },
        Except.error (Err.depNotRegistered D)) := by
  simp only [regCtrl, if_neg hC1, if_neg hC2, hsplit]
  have hloop : ∀ (l1 : List Nat), (∀ d ∈ l1, d ∈ st.instances ∧
      d ∈ registryIds env) →
      regDepsF (fun d st2 => regCtrl env (fuel+1) d st2)
        (fun d => decide (d ∈ registryIds env)) (l1 ++ D :: ds2)
        { st with inFlight := C :: st.inFlight } =
      ({ st with inFlight := C :: st.inFlight },
        Except.error (Err.depNotRegistered D)) := by
    intro l1
    induction l1 with
    | nil =>
      intro _
      simp only [List.nil_append, regDepsF]
      rw [if_neg (by simpa using hDreg)]
    | cons d l1 ih =>
      intro hl
      simp only [List.cons_append, regDepsF]
      rw [if_pos (by simpa using (hl d (by simp)).2)]
      rw [regCtrl_cached env fuel d
        { st with inFlight := C :: st.inFlight } (hl d (by simp)).1]
      exact ih (fun d2 hd2 => hl d2 (by simp [hd2]))
  have hL := hloop ds1 hds1
  simp only [regCtrl] at hL
  rw [hL]

theorem regCtrl_fail_keeps_inFlight (env : List Controller) :
    ∀ fuel x st e, x ∉ st.instances →
      (regCtrl env (fuel+1) x st).2 = Except.error e →
      x ∈ (regCtrl env (fuel+1) x st).1.inFlight ∧
      x ∉ (regCtrl env (fuel+1) x st).1.instances := by
  intro fuel x st e hx he
  simp only [regCtrl, if_neg hx] at he ⊢
  by_cases hxf : x ∈ st.inFlight
  · rw [if_pos hxf] at he ⊢
    exact ⟨hxf, hx⟩
  · rw [if_neg hxf] at he ⊢
    rcases hr : regDepsF (fun d st2 => regCtrl env fuel d st2)
        (fun d => decide (d ∈ registryIds env)) (depsOf env x)
        { st with inFlight := x :: st.inFlight } with ⟨st2, r⟩
    rw [hr] at he
    have hP2 : x ∈ st2.inFlight ∧ x ∉ st2.instances := by
      have h4 := regDepsF_pres
        (fun s => x ∈ s.inFlight ∧ x ∉ s.instances)
        (fun d st2 => regCtrl env fuel d st2)
        (fun d => decide (d ∈ registryIds env))
        (fun d s hP => ⟨(regCtrl_sticky env x fuel d s hP.1 hP.2).1,
          (regCtrl_sticky env x fuel d s hP.1 hP.2).2.1⟩)
        (depsOf env x) { st with inFlight := x :: st.inFlight }
        ⟨List.mem_cons_self _ _, hx⟩
      rwa [hr] at h4
    cases r with
    | error e2 => exact hP2
    | ok u =>
      cases u
      rcases finishCtrl_spec env x st2 with ⟨hok, -, -⟩ | ⟨-, hi, hf⟩
      · rw [hok] at he
        simp at he
      · rw [hi, hf]
        exact hP2

/-! Remaining helpers for the claim theorems. -/

theorem findCtrl_self (env : List Controller) (hnd : (registryIds env).Nodup)
    (a : Controller) (ha : a ∈ env) : findCtrl env a.id = some a := by
  induction env with
  | nil => simp at ha
  | cons c cs ih =>
    have hnd2 : c.id ∉ registryIds cs ∧ (registryIds cs).Nodup := by
      simpa [registryIds] using List.nodup_cons.mp hnd
    rcases List.mem_cons.mp ha with heq | ha2
    · rw [heq]
      simp only [findCtrl]
      rw [List.find?_cons_of_pos _ (by simp)]
    · have hne : c.id ≠ a.id := by
        intro h
        exact hnd2.1 (h ▸ List.mem_map_of_mem (fun c => c.id) ha2)
      simp only [findCtrl]
      rw [List.find?_cons_of_neg _ (by simp [hne])]
      exact ih hnd2.2 ha2

theorem depsOf_self (env : List Controller) (hnd : (registryIds env).Nodup)
    (a : Controller) (ha : a ∈ env) : depsOf env a.id = a.deps := by
  rw [depsOf, findCtrl_self env hnd a ha]
  rfl

theorem startLoop_all_cached (env : List Controller) (fuel : Nat) :
    ∀ l st, (∀ x ∈ l, x ∈ st.instances) →
      startLoop env (fuel+1) l st = (st, Except.ok ()) := by
  intro l
  induction l with
  | nil => intro st _; rfl
  | cons x xs ih =>
    intro st h
    simp only [startLoop]
    rw [regCtrl_cached env fuel x st (h x (by simp))]
    exact ih st (fun y hy => h y (by simp [hy]))

theorem startState_trace_ext (env : List Controller) (st : St) :
    ∃ t, (startState env st).trace = st.trace ++ t ∧
      ∀ e ∈ t, e = Event.warnEmpty := by
  rw [startState]
  split
  · exact ⟨[Event.warnEmpty], rfl, by intro e he; simpa using he⟩
  · exact ⟨[], by simp, by simp⟩

theorem startState_count (env : List Controller) (st : St) (x : Nat) :
    (startState env st).trace.count (Event.startRun x) =
      st.trace.count (Event.startRun x) := by
  rw [startState]
  split
  · show (st.trace ++ [Event.warnEmpty]).count _ = _
    rw [List.count_append]
    have h0 : ([Event.warnEmpty].count (Event.startRun x)) = 0 := by
      rw [List.count_eq_zero]
      simp
    rw [h0]
    omega
  · rfl

/-! The claims. -/

/-- Claim C1: after a full `runLifecycle()` run from the initial state, every
instance in the Instance Table has all of its declared dependencies already in
the Instance Table, and every construction event in the run's trace is
strictly preceded by store events for all of the constructed component's
declared dependencies — i.e. a dependency reaches `Initialized` strictly
before its dependent's construction step runs, regardless of load order. -/
theorem claim_C1 (env : List Controller) :
    (∀ x ∈ (appStart env St.init).1.instances,
      ∀ d ∈ depsOf env x, d ∈ (appStart env St.init).1.instances) ∧
    (∀ i x, (appStart env St.init).1.trace.get? i =
        some (Event.construct x) →
      ∀ d ∈ depsOf env x, ∃ j, j < i ∧
        (appStart env St.init).1.trace.get? j = some (Event.store d)) := by
  have h := appStart_inv env St.init (invSt_init env)
  exact ⟨h.1, h.2.2⟩

/-- Claim C6: the `Dependency` lookup fails with the not-started-yet error
before `AppLife.Start()` has been initiated; fails with the not-registered
error when the identity has no entry in the Instance Table; and otherwise
returns the stored instance.  (`dependency` is a pure function of the state:
it performs no construction and has no side effect on any registry.) -/
theorem claim_C6 (st : St) (x : Nat) :
    (st.started = false → dependency st x = Except.error Err.notStarted) ∧
    (st.started = true → x ∉ st.instances →
      dependency st x = Except.error Err.notLoaded) ∧
    (st.started = true → x ∈ st.instances →
      dependency st x = Except.ok x) := by
  refine ⟨?_, ?_, ?_⟩
  · intro h
    simp [dependency, h]
  · intro h1 h2
    simp [dependency, h1, h2]
  · intro h1 h2
    simp [dependency, h1, h2]

theorem claim_C6_witness :
    dependency St.init 0 = Except.error Err.notStarted ∧
    dependency ⟨[5], [], true, []⟩ 0 = Except.error Err.notLoaded ∧
    dependency ⟨[5], [], true, []⟩ 5 = Except.ok 5 :=
  ⟨(claim_C6 St.init 0).1 rfl,
   (claim_C6 ⟨[5], [], true, []⟩ 0).2.1 rfl (by decide),
   (claim_C6 ⟨[5], [], true, []⟩ 5).2.2 rfl (by decide)⟩

/-- Claim C7: when a component's declared dependency list contains an
identity absent from the Declaration Registry, resolving that component
always fails and the component is neither constructed nor stored; when the
dependencies before the missing one are already initialized, the error is
precisely the unknown-identity error naming the missing identity, and the
only state change is the in-flight marker. -/
theorem claim_C7 (env : List Controller) (C D : Nat) (st : St)
    (hD : D ∈ depsOf env C) (hDreg : D ∉ registryIds env)
    (hC : C ∉ st.instances) :
    (∀ fuel, (∃ e, (regCtrl env fuel C st).2 = Except.error e) ∧
      C ∉ (regCtrl env fuel C st).1.instances ∧
      ∃ t, (regCtrl env fuel C st).1.trace = st.trace ++ t ∧
        Event.construct C ∉ t) ∧
    (∀ fuel ds1 ds2, depsOf env C = ds1 ++ D :: ds2 →
      (∀ d ∈ ds1, d ∈ st.instances ∧ d ∈ registryIds env) →
      C ∉ st.inFlight →
      regCtrl env (fuel+2) C st =
        ({ st with inFlight := C :: st.inFlight },
          Except.error (Err.depNotRegistered D))) :=
  ⟨fun fuel => regCtrl_unreg_notConstructed env C D hD hDreg fuel st hC,
   fun fuel ds1 ds2 hsplit hds1 hC2 =>
     regCtrl_unreg_exact env fuel C D ds1 ds2 st hsplit hds1 hDreg hC hC2⟩

theorem claim_C7_witness :
    (∃ e, (regCtrl [⟨0, none, [1, 5], false, none, none⟩,
        ⟨1, none, [], false, none, none⟩] 3 0
        ⟨[1], [], true, []⟩).2 = Except.error e) ∧
    0 ∉ (regCtrl [⟨0, none, [1, 5], false, none, none⟩,
        ⟨1, none, [], false, none, none⟩] 3 0
        ⟨[1], [], true, []⟩).1.instances ∧
    regCtrl [⟨0, none, [1, 5], false, none, none⟩,
        ⟨1, none, [], false, none, none⟩] 3 0 ⟨[1], [], true, []⟩ =
      (⟨[1], [0], true, []⟩, Except.error (Err.depNotRegistered 5)) := by
  have h := claim_C7 [⟨0, none, [1, 5], false, none, none⟩,
      ⟨1, none, [], false, none, none⟩] 0 5 ⟨[1], [], true, []⟩
      (by decide) (by decide) (by decide)
  refine ⟨(h.1 3).1, (h.1 3).2.1, ?_⟩
  have h2 := h.2 1 [1] [] (by decide) (by decide) (by decide)
  exact h2

/-- Claim C10: when `registerController` fails for an identity (for any
reason), that identity remains in the in-flight set, because the in-flight
marker is removed only on the success path; consequently every subsequent
resolution attempt for that identity fails with the cyclic-dependency error
(with no state change), regardless of the original failure cause, and the
situation persists across registrations of other identities. -/
theorem claim_C10 (env : List Controller) (x : Nat) (st : St) :
    (∀ fuel e, x ∉ st.instances →
      (regCtrl env (fuel+1) x st).2 = Except.error e →
      x ∈ (regCtrl env (fuel+1) x st).1.inFlight ∧
      x ∉ (regCtrl env (fuel+1) x st).1.instances) ∧
    (∀ fuel, x ∈ st.inFlight → x ∉ st.instances →
      regCtrl env (fuel+1) x st = (st, Except.error Err.cyclic)) ∧
    (∀ fuel y, x ∈ st.inFlight → x ∉ st.instances →
      x ∈ (regCtrl env fuel y st).1.inFlight ∧
      x ∉ (regCtrl env fuel y st).1.instances) :=
  ⟨fun fuel e h1 h2 => regCtrl_fail_keeps_inFlight env fuel x st e h1 h2,
   fun fuel h1 h2 => regCtrl_inFlight_cyclic env fuel x st h1 h2,
   fun fuel y h1 h2 => ⟨(regCtrl_sticky env x fuel y st h1 h2).1,
     (regCtrl_sticky env x fuel y st h1 h2).2.1⟩⟩

theorem claim_C10_witness :
    (0 ∈ (regCtrl [⟨0, none, [9], false, none, none⟩] 2 0
        St.init).1.inFlight ∧
      0 ∉ (regCtrl [⟨0, none, [9], false, none, none⟩] 2 0
        St.init).1.instances) ∧
    regCtrl [⟨0, none, [9], false, none, none⟩] 2 0
        (regCtrl [⟨0, none, [9], false, none, none⟩] 2 0 St.init).1 =
      ((regCtrl [⟨0, none, [9], false, none, none⟩] 2 0 St.init).1,
        Except.error Err.cyclic) := by
  constructor
  · exact (claim_C10 [⟨0, none, [9], false, none, none⟩] 0 St.init).1 1
      (Err.depNotRegistered 9) (by decide) (by rfl)
  · exact (claim_C10 [⟨0, none, [9], false, none, none⟩] 0
      (regCtrl [⟨0, none, [9], false, none, none⟩] 2 0 St.init).1).2.1 1
      (by decide) (by decide)

/-- Claim C2: for every registry whose dependency graph contains a self-cycle
or a mutual two-cycle (all declared dependencies registered, constructors and
init hooks not failing — so that the graph is the only obstruction),
`runLifecycle()` fails with the cyclic-dependency error, and no member of any
self- or two-cycle is ever stored in the Instance Table. -/
theorem claim_C2 (env : List Controller)
    (hnd : (registryIds env).Nodup)
    (hclosed : ∀ c ∈ env, ∀ d ∈ c.deps, d ∈ registryIds env)
    (hbenign : ∀ c ∈ env, c.ctorFails = false ∧ c.initHook ≠ some true)
    (hcyc : (∃ a ∈ env, a.id ∈ a.deps) ∨
      ∃ a b, a ∈ env ∧ b ∈ env ∧ b.id ∈ a.deps ∧ a.id ∈ b.deps) :
    (appStart env St.init).2 = Except.error Err.cyclic ∧
    (∀ a ∈ env, a.id ∈ a.deps →
      a.id ∉ (appStart env St.init).1.instances) ∧
    (∀ a b, a ∈ env → b ∈ env → b.id ∈ a.deps → a.id ∈ b.deps →
      a.id ∉ (appStart env St.init).1.instances ∧
      b.id ∉ (appStart env St.init).1.instances) := by
  have hMut : ∀ a b, a ∈ env → b ∈ env → b.id ∈ a.deps → a.id ∈ b.deps →
      ∀ st1 r, appStart env St.init = (st1, r) →
      a.id ∉ st1.instances ∧ b.id ∉ st1.instances := by
    intro a b ha hb hab hba st1 r happ
    have hab' : b.id ∈ depsOf env a.id := by
      rw [depsOf_self env hnd a ha]; exact hab
    have hba' : a.id ∈ depsOf env b.id := by
      rw [depsOf_self env hnd b hb]; exact hba
    rcases appStart_cases env St.init with
      ⟨st1', e, hl, happ'⟩ | ⟨st1', hl, happ'⟩
    · rw [happ'] at happ
      have hst : st1' = st1 := congrArg Prod.fst happ
      subst hst
      have h2 := startLoop_cycle_notStored env (env.length + 1) a.id b.id
        hab' hba' (sortedIds env) (startState env St.init)
        (by rw [startState_instances]; simp [St.init])
        (by rw [startState_instances]; simp [St.init])
      rw [hl] at h2
      exact h2
    · rw [happ'] at happ
      have hst : runStartHooks env (sortedIds env) st1' = st1 :=
        congrArg Prod.fst happ
      subst hst
      have h2 := startLoop_cycle_notStored env (env.length + 1) a.id b.id
        hab' hba' (sortedIds env) (startState env St.init)
        (by rw [startState_instances]; simp [St.init])
        (by rw [startState_instances]; simp [St.init])
      rw [hl] at h2
      rw [runStartHooks_instances]
      exact h2
  rcases happ : appStart env St.init with ⟨st1, r⟩
  have hmem : ∀ m : Controller, m ∈ env → m.id ∈ sortedIds env := by
    intro m hm
    rw [sortedIds_mem]
    exact List.mem_map_of_mem (fun c => c.id) hm
  have hr_err : ∀ u : Unit, r ≠ Except.ok u := by
    intro u hu
    subst hu
    rcases appStart_cases env St.init with
      ⟨st1', e, hl, happ'⟩ | ⟨st1', hl, happ'⟩
    · rw [happ] at happ'
      have h5 := congrArg Prod.snd happ'
      simp at h5
    · rcases hcyc with ⟨a, ha, haa⟩ | ⟨a, b, ha, hb, hab, hba⟩
      · have h2 := hMut a a ha ha haa haa st1 (Except.ok u) happ
        have h3 := startLoop_ok_mem env (env.length + 1) (sortedIds env)
          (startState env St.init) (by rw [hl]) a.id (hmem a ha)
        rw [hl] at h3
        rw [happ] at happ'
        have hst : st1 = runStartHooks env (sortedIds env) st1' :=
          congrArg Prod.fst happ'
        rw [hst, runStartHooks_instances] at h2
        exact h2.1 h3
      · have h2 := hMut a b ha hb hab hba st1 (Except.ok u) happ
        have h3 := startLoop_ok_mem env (env.length + 1) (sortedIds env)
          (startState env St.init) (by rw [hl]) a.id (hmem a ha)
        rw [hl] at h3
        rw [happ] at happ'
        have hst : st1 = runStartHooks env (sortedIds env) st1' :=
          congrArg Prod.fst happ'
        rw [hst, runStartHooks_instances] at h2
        exact h2.1 h3
  have hr_cyc : r = Except.error Err.cyclic := by
    rcases r with e | u
    · rcases appStart_cases env St.init with
        ⟨st1', e', hl, happ'⟩ | ⟨st1', hl, happ'⟩
      · rw [happ] at happ'
        have he2 : e = e' := by
          have h5 := congrArg Prod.snd happ'
          simpa using h5
        subst he2
        have hcls := startLoop_err_class env hnd hclosed hbenign
          (env.length + 1) (sortedIds env) (startState env St.init)
          (fun y hy => (sortedIds_mem env y).mp hy)
          (by
            have hle : (freeIds env (startState env St.init)).length ≤
                (registryIds env).length := List.length_filter_le _ _
            have hlen : (registryIds env).length = env.length :=
              List.length_map _ _
            omega)
          e (by rw [hl])
        rw [hcls]
      · rw [happ] at happ'
        have h5 := congrArg Prod.snd happ'
        simp at h5
    · exact absurd rfl (hr_err u)
  subst hr_cyc
  refine ⟨rfl, ?_, ?_⟩
  · intro a ha haa
    exact (hMut a a ha ha haa haa st1 (Except.error Err.cyclic) happ).1
  · intro a b ha hb hab hba
    exact hMut a b ha hb hab hba st1 (Except.error Err.cyclic) happ

theorem claim_C2_witness :
    (appStart [⟨0, none, [1], false, none, none⟩,
      ⟨1, none, [0], false, none, none⟩] St.init).2 =
      Except.error Err.cyclic ∧
    0 ∉ (appStart [⟨0, none, [1], false, none, none⟩,
      ⟨1, none, [0], false, none, none⟩] St.init).1.instances ∧
    1 ∉ (appStart [⟨0, none, [1], false, none, none⟩,
      ⟨1, none, [0], false, none, none⟩] St.init).1.instances := by
  have h := claim_C2 [⟨0, none, [1], false, none, none⟩,
      ⟨1, none, [0], false, none, none⟩]
    (by decide) (by decide) (by decide)
    (Or.inr ⟨⟨0, none, [1], false, none, none⟩,
      ⟨1, none, [0], false, none, none⟩, by decide, by decide,
      by decide, by decide⟩)
  have h2 := h.2.2 ⟨0, none, [1], false, none, none⟩
    ⟨1, none, [0], false, none, none⟩ (by decide) (by decide)
    (by decide) (by decide)
  exact ⟨h.1, h2.1, h2.2⟩

/-- Claim C3 counterexample: with controllers 0 (depends on 2), 1 (failing
constructor, load order 1) and 2 (load order 2), the resolver order is
[0, 1, 2] and the run fails at component 1; yet component 2 — strictly later
in resolver order than the failing component — was already initialized as a
dependency of component 0, and the lookup succeeds for it afterwards.  This
contradicts the claim that no component later in resolver order than the
failing one reaches Initialized, and that resolve fails for every such later
component. -/
theorem claim_C3_counterexample :
    sortedIds [⟨0, none, [2], false, none, none⟩,
      ⟨1, some 1, [], true, none, none⟩,
      ⟨2, some 2, [], false, none, none⟩] = [0, 1, 2] ∧
    (appStart [⟨0, none, [2], false, none, none⟩,
      ⟨1, some 1, [], true, none, none⟩,
      ⟨2, some 2, [], false, none, none⟩] St.init).2 =
      Except.error (Err.ctorFailed 1) ∧
    2 ∈ (appStart [⟨0, none, [2], false, none, none⟩,
      ⟨1, some 1, [], true, none, none⟩,
      ⟨2, some 2, [], false, none, none⟩] St.init).1.instances ∧
    dependency (appStart [⟨0, none, [2], false, none, none⟩,
      ⟨1, some 1, [], true, none, none⟩,
      ⟨2, some 2, [], false, none, none⟩] St.init).1 2 = Except.ok 2 :=
  ⟨rfl, rfl, by decide, rfl⟩

/-- Claim C3 (amended): a failing construction step or init hook makes
`runLifecycle()` propagate the error and halt the top-level loop: the
resolver order splits into a prefix of fully initialized components, the
failing component, and an unattempted suffix; every identity in the Instance
Table is dependency-reachable from the prefix or the failing component (so a
component later in resolver order reaches Initialized only as a transitive
dependency of a component at or before the failing one); and afterwards
resolve fails with the not-registered error for every identity absent from
the Instance Table. -/
theorem claim_C3_amended (env : List Controller) (st1 : St) (e : Err)
    (happ : appStart env St.init = (st1, Except.error e)) :
    (∃ pre f post, sortedIds env = pre ++ f :: post ∧
      (∀ a ∈ pre, a ∈ st1.instances) ∧
      (∀ y ∈ st1.instances, ∃ a ∈ pre ++ [f], Reaches env a y)) ∧
    (∀ y, y ∉ st1.instances →
      dependency st1 y = Except.error Err.notLoaded) := by
  rcases appStart_cases env St.init with
    ⟨st1', e', hl, happ'⟩ | ⟨st1', hl, happ'⟩
  · rw [happ] at happ'
    have hst : st1 = st1' := congrArg Prod.fst happ'
    subst hst
    constructor
    · rcases startLoop_err_split env (env.length + 1) (sortedIds env)
        (startState env St.init) (by rw [hl]; simp) with
        ⟨pre, f, post, heq, hpre, hy⟩
      refine ⟨pre, f, post, heq, ?_, ?_⟩
      · intro a ha
        have h2 := hpre a ha
        rwa [hl] at h2
      · intro y hy2
        rcases hy y (by rw [hl]; exact hy2) with h3 | h3
        · rw [startState_instances] at h3
          simp [St.init] at h3
        · exact h3
    · intro y hyy
      have hstarted : st1.started = true := by
        have h4 := startLoop_started env (env.length + 1) (sortedIds env)
          (startState env St.init)
        rw [hl, startState_started] at h4
        exact h4
      simp [dependency, hstarted, hyy]
  · rw [happ] at happ'
    have h5 := congrArg Prod.snd happ'
    simp at h5

theorem claim_C3_amended_witness :
    ((∃ pre f post, sortedIds [⟨0, none, [2], false, none, none⟩,
        ⟨1, some 1, [], true, none, none⟩,
        ⟨2, some 2, [], false, none, none⟩] = pre ++ f :: post ∧
      (∀ a ∈ pre, a ∈ (appStart [⟨0, none, [2], false, none, none⟩,
        ⟨1, some 1, [], true, none, none⟩,
        ⟨2, some 2, [], false, none, none⟩] St.init).1.instances) ∧
      (∀ y ∈ (appStart [⟨0, none, [2], false, none, none⟩,
          ⟨1, some 1, [], true, none, none⟩,
          ⟨2, some 2, [], false, none, none⟩] St.init).1.instances,
        ∃ a ∈ pre ++ [f], Reaches [⟨0, none, [2], false, none, none⟩,
          ⟨1, some 1, [], true, none, none⟩,
          ⟨2, some 2, [], false, none, none⟩] a y)) ∧
    (∀ y, y ∉ (appStart [⟨0, none, [2], false, none, none⟩,
        ⟨1, some 1, [], true, none, none⟩,
        ⟨2, some 2, [], false, none, none⟩] St.init).1.instances →
      dependency (appStart [⟨0, none, [2], false, none, none⟩,
        ⟨1, some 1, [], true, none, none⟩,
        ⟨2, some 2, [], false, none, none⟩] St.init).1 y =
        Except.error Err.notLoaded)) :=
  claim_C3_amended [⟨0, none, [2], false, none, none⟩,
    ⟨1, some 1, [], true, none, none⟩,
    ⟨2, some 2, [], false, none, none⟩]
    (appStart [⟨0, none, [2], false, none, none⟩,
      ⟨1, some 1, [], true, none, none⟩,
      ⟨2, some 2, [], false, none, none⟩] St.init).1
    (Err.ctorFailed 1) rfl

/-- Claim C4: when the construct/init loop succeeds, a failing start hook is
non-fatal: `runLifecycle()` completes normally (resolving, not rejecting),
every declared start hook runs (its invocation event is in the trace), every
failing start hook produces a warning naming the component, and the lookup
still returns the instance of a component whose start hook failed (its
construct/init succeeded). -/
theorem claim_C4 (env : List Controller) (st1 : St)
    (hloop : startLoop env (env.length + 1) (sortedIds env)
      (startState env St.init) = (st1, Except.ok ())) :
    (appStart env St.init).2 = Except.ok () ∧
    ∀ x b, x ∈ registryIds env → startHookOf env x = some b →
      Event.startRun x ∈ (appStart env St.init).1.trace ∧
      (b = true → Event.warnStart x ∈ (appStart env St.init).1.trace) ∧
      dependency (appStart env St.init).1 x = Except.ok x := by
  rcases appStart_cases env St.init with
    ⟨st1', e, hl, happ⟩ | ⟨st1', hl, happ⟩
  · rw [hloop] at hl
    have h5 := congrArg Prod.snd hl
    simp at h5
  · rw [hloop] at hl
    have hst : st1 = st1' := congrArg Prod.fst hl
    subst hst
    rw [happ]
    refine ⟨rfl, ?_⟩
    intro x b hx hb
    have hxs : x ∈ sortedIds env := (sortedIds_mem env x).mpr hx
    have hev := runStartHooks_events env x b (sortedIds env) st1 hxs hb
    have hxi : x ∈ st1.instances := by
      have h2 := startLoop_ok_mem env (env.length + 1) (sortedIds env)
        (startState env St.init) (by rw [hloop]) x hxs
      rwa [hloop] at h2
    have hst2 : (runStartHooks env (sortedIds env) st1).started = true := by
      rw [runStartHooks_started]
      have h3 := startLoop_started env (env.length + 1) (sortedIds env)
        (startState env St.init)
      rw [hloop, startState_started] at h3
      exact h3
    refine ⟨hev.1, hev.2, ?_⟩
    have hxi2 : x ∈ (runStartHooks env (sortedIds env) st1).instances := by
      rw [runStartHooks_instances]
      exact hxi
    simp [dependency, hst2, hxi2]

theorem claim_C4_witness :
    (appStart [⟨0, none, [], false, none, some true⟩,
      ⟨1, none, [], false, none, some false⟩] St.init).2 = Except.ok () ∧
    Event.startRun 0 ∈ (appStart [⟨0, none, [], false, none, some true⟩,
      ⟨1, none, [], false, none, some false⟩] St.init).1.trace ∧
    Event.warnStart 0 ∈ (appStart [⟨0, none, [], false, none, some true⟩,
      ⟨1, none, [], false, none, some false⟩] St.init).1.trace ∧
    Event.startRun 1 ∈ (appStart [⟨0, none, [], false, none, some true⟩,
      ⟨1, none, [], false, none, some false⟩] St.init).1.trace ∧
    dependency (appStart [⟨0, none, [], false, none, some true⟩,
      ⟨1, none, [], false, none, some false⟩] St.init).1 0 =
      Except.ok 0 := by
  have h := claim_C4 [⟨0, none, [], false, none, some true⟩,
      ⟨1, none, [], false, none, some false⟩]
    (startLoop [⟨0, none, [], false, none, some true⟩,
      ⟨1, none, [], false, none, some false⟩] 3
      (sortedIds [⟨0, none, [], false, none, some true⟩,
        ⟨1, none, [], false, none, some false⟩])
      (startState [⟨0, none, [], false, none, some true⟩,
        ⟨1, none, [], false, none, some false⟩] St.init)).1 rfl
  have h0 := h.2 0 true (by decide) (by decide)
  have h1 := h.2 1 false (by decide) (by decide)
  exact ⟨h.1, h0.1, h0.2.1 rfl, h1.1, h0.2.2⟩

/-- Claim C5: for a registry with no interdependencies (all dependency lists
empty, constructors and init hooks not failing), the sequence of construction
attempts of `runLifecycle()` is exactly the sorted traversal sequence, which
is a permutation of the declared identities, is sorted by ascending effective
load order (default 0 for components without a hint), and restricted to any
single load-order value keeps declaration order — i.e. ties are broken by
declaration order. -/
theorem claim_C5 (env : List Controller)
    (hnd : (registryIds env).Nodup)
    (hdeps : ∀ c ∈ env, c.deps = [])
    (hbenign : ∀ c ∈ env, c.ctorFails = false ∧ c.initHook ≠ some true) :
    constructsOf (appStart env St.init).1.trace = sortedIds env ∧
    List.Perm (sortedIds env) (registryIds env) ∧
    (sortedIds env).Pairwise
      (fun a b => loadOrderOf env a ≤ loadOrderOf env b) ∧
    (∀ v : Int, (sortedIds env).filter
        (fun y => decide (loadOrderOf env y = v)) =
      (registryIds env).filter
        (fun y => decide (loadOrderOf env y = v))) := by
  have hdeps' : ∀ x, depsOf env x = [] := by
    intro x
    rw [depsOf]
    rcases hf : findCtrl env x with - | c
    · rfl
    · simp
      exact hdeps c (findCtrl_mem env x c hf).1
  have hloop := startLoop_no_deps env env.length (sortedIds env)
    (startState env St.init)
    (fun x _ => ⟨hdeps' x, (benign_props env hbenign x).1,
      (benign_props env hbenign x).2⟩)
    (sortedIds_nodup env hnd)
    (fun x _ => by rw [startState_instances]; simp [St.init])
    (fun x _ => by rw [startState_inFlight]; simp [St.init])
  refine ⟨?_, sortedIds_perm env, sortedIds_sorted env,
    fun v => sortedIds_stable env v⟩
  rcases appStart_cases env St.init with
    ⟨st1', e, hl, happ⟩ | ⟨st1', hl, happ⟩
  · rw [hl] at hloop
    simp at hloop
  · rw [happ]
    have hcon : constructsOf st1'.trace = sortedIds env := by
      have h2 := hloop.2.2.2
      rw [hl] at h2
      rw [startState_constructs] at h2
      simpa [St.init, constructsOf] using h2
    show constructsOf
      (runStartHooks env (sortedIds env) st1').trace = sortedIds env
    rw [runStartHooks_constructs]
    exact hcon

theorem claim_C5_witness :
    constructsOf (appStart [⟨0, some 1, [], false, none, none⟩,
      ⟨1, none, [], false, none, none⟩,
      ⟨2, some 1, [], false, none, none⟩] St.init).1.trace =
      sortedIds [⟨0, some 1, [], false, none, none⟩,
        ⟨1, none, [], false, none, none⟩,
        ⟨2, some 1, [], false, none, none⟩] ∧
    List.Perm (sortedIds [⟨0, some 1, [], false, none, none⟩,
        ⟨1, none, [], false, none, none⟩,
        ⟨2, some 1, [], false, none, none⟩])
      (registryIds [⟨0, some 1, [], false, none, none⟩,
        ⟨1, none, [], false, none, none⟩,
        ⟨2, some 1, [], false, none, none⟩]) ∧
    (sortedIds [⟨0, some 1, [], false, none, none⟩,
        ⟨1, none, [], false, none, none⟩,
        ⟨2, some 1, [], false, none, none⟩]).Pairwise
      (fun a b => loadOrderOf [⟨0, some 1, [], false, none, none⟩,
          ⟨1, none, [], false, none, none⟩,
          ⟨2, some 1, [], false, none, none⟩] a ≤
        loadOrderOf [⟨0, some 1, [], false, none, none⟩,
          ⟨1, none, [], false, none, none⟩,
          ⟨2, some 1, [], false, none, none⟩] b) ∧
    (sortedIds [⟨0, some 1, [], false, none, none⟩,
        ⟨1, none, [], false, none, none⟩,
        ⟨2, some 1, [], false, none, none⟩]).filter
      (fun y => decide (loadOrderOf [⟨0, some 1, [], false, none, none⟩,
          ⟨1, none, [], false, none, none⟩,
          ⟨2, some 1, [], false, none, none⟩] y = 1)) =
    (registryIds [⟨0, some 1, [], false, none, none⟩,
        ⟨1, none, [], false, none, none⟩,
        ⟨2, some 1, [], false, none, none⟩]).filter
      (fun y => decide (loadOrderOf [⟨0, some 1, [], false, none, none⟩,
          ⟨1, none, [], false, none, none⟩,
          ⟨2, some 1, [], false, none, none⟩] y = 1)) := by
  have h := claim_C5 [⟨0, some 1, [], false, none, none⟩,
      ⟨1, none, [], false, none, none⟩,
      ⟨2, some 1, [], false, none, none⟩]
    (by decide) (by decide) (by decide)
  exact ⟨h.1, h.2.1, h.2.2.1, h.2.2.2 1⟩

/-- Claim C8 counterexample: declaring an already-declared identity is not a
silent no-op — the decorator throws the already-registered error (here the
second declaration of identity 0 with different options). -/
theorem claim_C8_counterexample :
    controllerDecl [⟨0, none, [], false, none, none⟩]
      ⟨0, some 5, [7], true, none, none⟩ =
      Except.error Err.alreadyRegistered := rfl

/-- Claim C8 (amended): declaring an identity that is already in the
Declaration Registry raises the already-registered error — the decorator
throws instead of silently ignoring the duplicate; the registry is not
modified, so the first registration (its load-order hint and dependency
list) is kept. -/
theorem claim_C8_amended (reg : List Controller) (c : Controller)
    (h : c.id ∈ registryIds reg) :
    controllerDecl reg c = Except.error Err.alreadyRegistered := by
  simp [controllerDecl, h]

theorem claim_C8_amended_witness :
    controllerDecl [⟨0, none, [], false, none, none⟩]
      ⟨0, none, [], false, none, none⟩ =
      Except.error Err.alreadyRegistered :=
  claim_C8_amended [⟨0, none, [], false, none, none⟩]
    ⟨0, none, [], false, none, none⟩ (by decide)

/-- Claim C9 counterexample: with one declared controller whose start hook
succeeds, a second `AppLife.Start()` call after a completed first call
neither fails nor no-ops — it completes normally and re-invokes the start
hook, leaving two start-run events for the same component in the trace. -/
theorem claim_C9_counterexample :
    (appStart [⟨0, none, [], false, none, some false⟩]
        (appStart [⟨0, none, [], false, none, some false⟩] St.init).1).2 =
      Except.ok () ∧
    ((appStart [⟨0, none, [], false, none, some false⟩]
        (appStart [⟨0, none, [], false, none, some false⟩]
          St.init).1).1.trace.count (Event.startRun 0)) = 2 :=
  ⟨rfl, by decide⟩

/-- Claim C9 (amended): `AppLife.Start()` has no idempotency guard.  A second
call after a successful first call completes normally again and performs no
construction and no init work — the instance table is unchanged and the
appended events are only start-hook invocations, start warnings, or the
empty-registry notice — but it re-invokes every declared start hook once
more. -/
theorem claim_C9_amended (env : List Controller) (st1 : St)
    (hnd : (registryIds env).Nodup)
    (h1 : appStart env St.init = (st1, Except.ok ())) :
    ∃ st2, appStart env st1 = (st2, Except.ok ()) ∧
      st2.instances = st1.instances ∧
      (∃ t, st2.trace = st1.trace ++ t ∧
        ∀ e ∈ t, e = Event.warnEmpty ∨
          ∃ y, e = Event.startRun y ∨ e = Event.warnStart y) ∧
      (∀ x b, x ∈ registryIds env → startHookOf env x = some b →
        st2.trace.count (Event.startRun x) =
          st1.trace.count (Event.startRun x) + 1) := by
  have hall : ∀ x ∈ sortedIds env, x ∈ st1.instances := by
    rcases appStart_cases env St.init with
      ⟨st1', e, hl, happ⟩ | ⟨st1', hl, happ⟩
    · rw [h1] at happ
      have h5 := congrArg Prod.snd happ
      simp at h5
    · rw [h1] at happ
      have hst : st1 = runStartHooks env (sortedIds env) st1' :=
        congrArg Prod.fst happ
      intro x hx
      rw [hst, runStartHooks_instances]
      have h2 := startLoop_ok_mem env (env.length + 1) (sortedIds env)
        (startState env St.init) (by rw [hl]) x hx
      rwa [hl] at h2
  have hcach := startLoop_all_cached env env.length (sortedIds env)
    (startState env st1)
    (fun x hx => by rw [startState_instances]; exact hall x hx)
  refine ⟨runStartHooks env (sortedIds env) (startState env st1),
    ?_, ?_, ?_, ?_⟩
  · rcases appStart_cases env st1 with
      ⟨st1', e, hl, happ⟩ | ⟨st1', hl, happ⟩
    · rw [hcach] at hl
      have h5 := congrArg Prod.snd hl
      simp at h5
    · rw [hcach] at hl
      have hst : startState env st1 = st1' := congrArg Prod.fst hl
      rw [happ, ← hst]
  · rw [runStartHooks_instances, startState_instances]
  · rcases runStartHooks_trace_ext env (sortedIds env)
      (startState env st1) with ⟨t2, ht2, hte2⟩
    rcases startState_trace_ext env st1 with ⟨t1, ht1, hte1⟩
    refine ⟨t1 ++ t2, ?_, ?_⟩
    · rw [ht2, ht1, List.append_assoc]
    · intro e he
      rcases List.mem_append.mp he with h | h
      · exact Or.inl (hte1 e h)
      · exact Or.inr (hte2 e h)
  · intro x b hx hb
    rw [runStartHooks_count_mem env x b (sortedIds env) _
      (sortedIds_nodup env hnd) ((sortedIds_mem env x).mpr hx) hb]
    rw [startState_count]

theorem claim_C9_amended_witness :
    ∃ st2, appStart [⟨0, none, [], false, none, some false⟩]
        (appStart [⟨0, none, [], false, none, some false⟩] St.init).1 =
        (st2, Except.ok ()) ∧
      st2.instances = (appStart [⟨0, none, [], false, none, some false⟩]
        St.init).1.instances ∧
      (∃ t, st2.trace = (appStart [⟨0, none, [], false, none, some false⟩]
          St.init).1.trace ++ t ∧
        ∀ e ∈ t, e = Event.warnEmpty ∨
          ∃ y, e = Event.startRun y ∨ e = Event.warnStart y) ∧
      (∀ x b, x ∈ registryIds [⟨0, none, [], false, none, some false⟩] →
        startHookOf [⟨0, none, [], false, none, some false⟩] x = some b →
        st2.trace.count (Event.startRun x) =
          (appStart [⟨0, none, [], false, none, some false⟩]
            St.init).1.trace.count (Event.startRun x) + 1) :=
  claim_C9_amended [⟨0, none, [], false, none, some false⟩]
    (appStart [⟨0, none, [], false, none, some false⟩] St.init).1
    (by decide) rfl
